import Mathlib

/-!
Verification of the qtfaststart processor (`qtfaststart/processor.py`).

The development shallowly embeds the processor over byte lists: a file or an
in-memory buffer is a `List Nat` of byte values, a stream position is a `Nat`,
and every Python loop is embedded as a fuel-indexed structural recursion whose
fuel exhaustion models non-termination of the source loop.  Python exceptions
become `Option`/`Except` results.  All definitions follow the source code of
`processor.py`; the one definition marked "Modelled from the spec" is the
spec-side enumeration of a container atom's direct children, used only to
state properties, never as the code.
-/

namespace QtFastStart

/-- A byte string: the contents of a file or of an in-memory buffer.  Each
element is a byte value (the embedding never needs values above 255 to be
excluded: all bytes produced by the code are reductions mod 256). -/
abbrev Bytes := List Nat

/-- Python `stream.seek(pos); stream.read(n)`: returns up to `n` bytes
starting at `pos`, fewer if the stream ends early. -/
def readUpTo (s : Bytes) (pos n : Nat) : Bytes :=
  (s.drop pos).take n

/-- An exact read of `n` bytes at `pos`, as required by `struct.unpack`:
`none` when fewer than `n` bytes are available (Python raises
`struct.error`). -/
def readBytes (s : Bytes) (pos n : Nat) : Option Bytes :=
  let b := readUpTo s pos n
  if b.length = n then some b else none

/-- Big-endian value of a byte string (`struct.unpack` with format
`>L`/`>Q`). -/
def beVal (b : Bytes) : Nat :=
  b.foldl (fun acc x => acc * 256 + x) 0

/-- Big-endian encoding of `v` on `w` bytes (`struct.pack` with format
`>L`/`>Q`). -/
def bePack : Nat → Nat → Bytes
  | 0, _ => []
  | w + 1, v => bePack w (v / 256) ++ [v % 256]

/-- Split a byte string into `cnt` big-endian values of `w` bytes each
(`struct.unpack` of a whole chunk-offset entry run). -/
def beChunks (w : Nat) : Nat → Bytes → List Nat
  | 0, _ => []
  | cnt + 1, b => beVal (b.take w) :: beChunks w cnt (b.drop w)

/-- Python `buf.seek(pos); buf.write(d)` on a `BytesIO` whose length is at
least `pos`: overwrite `d.length` bytes at `pos`. -/
def writeBytes (buf : Bytes) (pos : Nat) (d : Bytes) : Bytes :=
  buf.take pos ++ d ++ buf.drop (pos + d.length)

/-- The `Atom` namedtuple of `processor.py`: four-byte type code, absolute
position of the header start, and total size including the header. -/
@[ext]
structure Atom where
  name : Bytes
  position : Nat
  size : Nat
deriving DecidableEq, Repr

/-- Byte code of the atom type `"moov"`. -/
def MOOV : Bytes := [109, 111, 111, 118]

/-- Byte code of the atom type `"mdat"`. -/
def MDAT : Bytes := [109, 100, 97, 116]

/-- Byte code of the atom type `"free"`. -/
def FREE : Bytes := [102, 114, 101, 101]

/-- Byte code of the atom type `"ftyp"`. -/
def FTYP : Bytes := [102, 116, 121, 112]

/-- Byte code of the atom type `"cmov"`. -/
def CMOV : Bytes := [99, 109, 111, 118]

/-- Byte code of the atom type `"trak"`. -/
def TRAK : Bytes := [116, 114, 97, 107]

/-- Byte code of the atom type `"mdia"`. -/
def MDIA : Bytes := [109, 100, 105, 97]

/-- Byte code of the atom type `"minf"`. -/
def MINF : Bytes := [109, 105, 110, 102]

/-- Byte code of the atom type `"stbl"`. -/
def STBL : Bytes := [115, 116, 98, 108]

/-- Byte code of the atom type `"stco"`. -/
def STCO : Bytes := [115, 116, 99, 111]

/-- Byte code of the atom type `"co64"`. -/
def CO64 : Bytes := [99, 111, 54, 52]

/-- Byte code of the spurious zero-name atom `"\x00\x00\x00\x00"`. -/
def ZERO4 : Bytes := [0, 0, 0, 0]

/-- `read_atom`: consume 8 bytes, returning the 32-bit big-endian size field
and the 4-byte type code.  The type code is decoded as ASCII, so a byte of
128 or more raises (`none`); a short read raises `struct.error` (`none`). -/
def readAtom (s : Bytes) (pos : Nat) : Option (Nat × Bytes) :=
  match readBytes s pos 8 with
  | none => none
  | some b =>
    let nm := b.drop 4
    if nm.all (fun c => decide (c < 128)) then some (beVal (b.take 4), nm)
    else none

/-- `_read_atom_ex`: read an atom header at `pos`; a size field of 1 means
the true size follows as a 64-bit big-endian integer.  Returns the `Atom`
and the stream position just past the header. -/
def readAtomEx (s : Bytes) (pos : Nat) : Option (Atom × Nat) :=
  match readAtom s pos with
  | none => none
  | some (sz, nm) =>
    if sz = 1 then
      match readBytes s (pos + 8) 8 with
      | none => none
      | some b => some (⟨nm, pos, beVal b⟩, pos + 16)
    else some (⟨nm, pos, sz⟩, pos + 8)

/-- `_read_atoms`: read top-level atoms until a read fails, seeking to
`position + size` after each one.  A zero-size `mdat` atom terminates the
scan; any other zero-size atom is recorded and the scan continues at the
current position (just past the header).  The fuel bounds the number of
loop iterations; `getIndexAtoms` supplies enough fuel for every input. -/
def readAtoms : Nat → Bytes → Nat → List Atom
  | 0, _, _ => []
  | fuel + 1, s, pos =>
    match readAtomEx s pos with
    | none => []
    | some (a, p') =>
      a :: (if a.size = 0 then
              (if a.name = MDAT then [] else readAtoms fuel s p')
            else readAtoms fuel s (a.position + a.size))

/-- The top-level index of a file, scanned from position 0 (`get_index`
before its validation step).  Every loop iteration advances the position by
at least one byte, so fuel `s.length + 1` never runs out. -/
def getIndexAtoms (s : Bytes) : List Atom :=
  readAtoms (s.length + 1) s 0

/-- The exception taxonomy of `qtfaststart/exceptions.py`, plus `other` for
exceptions that escape the module (`struct.error`, decode errors) and for
fuel exhaustion (source-level non-termination). -/
inductive QtError where
  | fastStartSetup (msg : String)
  | malformedFile (msg : String)
  | unsupportedFormat (msg : String)
  | other (msg : String)
deriving DecidableEq, Repr

/-- Message of the malformed-file error for a missing `moov` atom. -/
def moovMissingMsg : String := "moov atom not found, is this a valid MOV/MP4 file?"

/-- Message of the malformed-file error for a missing `mdat` atom. -/
def mdatMissingMsg : String := "mdat atom not found, is this a valid MOV/MP4 file?"

/-- Message of the no-processing-needed error. -/
def setupMsg : String := "This file appears to already be setup!"

/-- Message of the unsupported-format error for compressed metadata. -/
def compressedMsg : String := "Movies with compressed headers are not supported"

/-- Message of the malformed-file error raised by the atom tree walker. -/
def findErrMsg : String := "Error reading next atom!"

/-- `_ensure_valid_index`: require a `moov` and an `mdat` atom in the index,
checked in that order, raising a malformed-file error naming the missing
one. -/
def ensureValidIndex (idx : List Atom) : Except QtError Unit :=
  if idx.any (fun a => decide (a.name = MOOV)) then
    if idx.any (fun a => decide (a.name = MDAT)) then Except.ok ()
    else Except.error (QtError.malformedFile mdatMissingMsg)
  else Except.error (QtError.malformedFile moovMissingMsg)

/-- State of the planning loop of `process`: the running `mdat_pos` (with its
`999999` sentinel initial value), the accumulated `free_size`, and the last
`moov` atom seen (`none` models the name being still unbound). -/
structure PlanState where
  mdatPos : Nat
  freeSize : Nat
  moov : Option Atom
deriving DecidableEq, Repr

/-- One iteration of the planning loop of `process` over the index. -/
def planStep (cleanup : Bool) (st : PlanState) (a : Atom) : PlanState :=
  if a.name = MOOV then { st with moov := some a }
  else if a.name = MDAT then { st with mdatPos := a.position }
  else if a.name = FREE ∧ a.position < st.mdatPos ∧ cleanup = true then
    { st with freeSize := st.freeSize + a.size }
  else if a.name = ZERO4 ∧ a.position < st.mdatPos then
    { st with freeSize := st.freeSize + 8 }
  else st

/-- The planning loop of `process`: fold over the index with
`mdat_pos = 999999`, `free_size = 0` and `moov` unbound. -/
def planScan (cleanup : Bool) (idx : List Atom) : PlanState :=
  idx.foldl (planStep cleanup) ⟨999999, 0, none⟩

/-- The offset computation of `process`: `offset = -free_size`, adjusted by
the `moov` size when the current placement of `moov` relative to `mdat_pos`
differs from the requested one.  `none` models the `NameError` Python would
raise when no `moov` atom was seen (unreachable after index validation). -/
def planOffset (idx : List Atom) (toEnd cleanup : Bool) : Option (Int × Atom) :=
  let st := planScan cleanup idx
  match st.moov with
  | none => none
  | some m =>
    let base : Int := -(st.freeSize : Int)
    if m.position < st.mdatPos then
      some ((if toEnd then base - (m.size : Int) else base), m)
    else
      some ((if toEnd then base else base + (m.size : Int)), m)

/-- The scan loop of `_moov_is_compressed`: step through the children of the
`moov` atom, advancing by `tell() + size - 8` after each header read, and
report whether a child named `cmov` is met.  A failing header read models
the uncaught `struct.error`; fuel exhaustion models the loop never
terminating (a zero-size child). -/
def moovCompressedLoop : Nat → Bytes → Nat → Nat → Except String Bool
  | 0, _, _, _ => Except.error "moov child scan does not terminate"
  | fuel + 1, s, pos, stop =>
    if pos < stop then
      match readAtomEx s pos with
      | none => Except.error "error reading moov child header"
      | some (a, p') =>
        if a.name = CMOV then Except.ok true
        else moovCompressedLoop fuel s (p' + a.size - 8) stop
    else Except.ok false

/-- `_moov_is_compressed`: scan the direct children of the `moov` atom,
starting 8 bytes past its header start, up to `position + size`. -/
def moovIsCompressed (s : Bytes) (m : Atom) : Except String Bool :=
  moovCompressedLoop (m.position + m.size + 1) s (m.position + 8) (m.position + m.size)

/-- The per-table body of the `_patch_moov` loop: read `cnt` entries of `w`
bytes each at `entriesPos`, add `offset` to every entry, and write them back
at the same place.  A short read or an out-of-range packed value models the
uncaught `struct.error`. -/
def patchEntries (buf : Bytes) (entriesPos w cnt : Nat) (offset : Int) :
    Except String Bytes :=
  match readBytes buf entriesPos (w * cnt) with
  | none => Except.error "short read of chunk-offset entries"
  | some eb =>
    let patched := (beChunks w cnt eb).map (fun (e : Nat) => (e : Int) + offset)
    if ∀ v ∈ patched, 0 ≤ v ∧ v < (256 : Int) ^ w then
      Except.ok (writeBytes buf entriesPos ((patched.map (fun v => bePack w v.toNat)).flatten))
    else Except.error "patched offset out of range"

/-- The fused `_find_atoms_ex` / `_patch_moov` loop over the in-memory moov
buffer: recurse into `trak`/`mdia`/`minf`/`stbl`, patch each `stco`/`co64`
table in place and resume just past its entries, and seek past anything
else.  Returns the patched buffer and the final stream position.  Fuel
exhaustion models source-level non-termination (a zero-size leaf atom). -/
def patchWalk : Nat → Bytes → Nat → Nat → Int → Except String (Bytes × Nat)
  | 0, _, _, _, _ => Except.error "atom walk does not terminate"
  | fuel + 1, buf, pos, stop, offset =>
    if pos < stop then
      match readAtomEx buf pos with
      | none => Except.error findErrMsg
      | some (a, p') =>
        if a.name = TRAK ∨ a.name = MDIA ∨ a.name = MINF ∨ a.name = STBL then
          match patchWalk fuel buf p' (a.position + a.size) offset with
          | Except.error e => Except.error e
          | Except.ok (buf', fin) => patchWalk fuel buf' fin stop offset
        else if a.name = STCO ∨ a.name = CO64 then
          let w := if a.name = STCO then 4 else 8
          match readBytes buf p' 8 with
          | none => Except.error "short read of table header"
          | some hb =>
            let cnt := beVal (hb.drop 4)
            match patchEntries buf (p' + 8) w cnt offset with
            | Except.error e => Except.error e
            | Except.ok buf' => patchWalk fuel buf' (p' + 8 + w * cnt) stop offset
        else patchWalk fuel buf (a.position + a.size) stop offset
    else Except.ok (buf, pos)

/-- `_patch_moov`: copy the `moov` atom's raw bytes into a buffer, re-read
its header from the buffer, and run the patching walk over its byte range.
The fuel `2 * buf.length + 2` over-approximates the number of loop steps of
any terminating source run. -/
def patchMoov (s : Bytes) (m : Atom) (offset : Int) : Except String Bytes :=
  let buf := readUpTo s m.position m.size
  match readAtomEx buf 0 with
  | none => Except.error "error reading moov header from buffer"
  | some (root, p0) =>
    (patchWalk (2 * buf.length + 2) buf p0 (root.position + root.size) offset).map Prod.fst

/-- `_find_atoms_ex` as a standalone traversal: yield every `stco`/`co64`
atom reachable through `trak`/`mdia`/`minf`/`stbl`, paired with the stream
position at the time of the yield (just past the header that was read).
Per the generator's documented contract, the consumer leaves the stream at
`position + size` of each yielded atom before the loop resumes.  Returns
the yielded list and the final stream position. -/
def findAtomsEx : Nat → Bytes → Nat → Nat → Except String (List (Atom × Nat) × Nat)
  | 0, _, _, _ => Except.error "atom walk does not terminate"
  | fuel + 1, s, pos, stop =>
    if pos < stop then
      match readAtomEx s pos with
      | none => Except.error findErrMsg
      | some (a, p') =>
        if a.name = TRAK ∨ a.name = MDIA ∨ a.name = MINF ∨ a.name = STBL then
          match findAtomsEx fuel s p' (a.position + a.size) with
          | Except.error e => Except.error e
          | Except.ok (ys, fin) =>
            match findAtomsEx fuel s fin stop with
            | Except.error e => Except.error e
            | Except.ok (ys₂, fin₂) => Except.ok (ys ++ ys₂, fin₂)
        else if a.name = STCO ∨ a.name = CO64 then
          match findAtomsEx fuel s (a.position + a.size) stop with
          | Except.error e => Except.error e
          | Except.ok (ys, fin) => Except.ok ((a, p') :: ys, fin)
        else
          match findAtomsEx fuel s (a.position + a.size) stop with
          | Except.error e => Except.error e
          | Except.ok (ys, fin) => Except.ok (ys, fin)
    else Except.ok ([], pos)

/-- The chunk size used by the stream writer (`CHUNK_SIZE`). -/
def CHUNK_SIZE : Nat := 8192

/-- `get_chunks`: read up to `limit` bytes starting at `pos` in chunks of at
most `chunkSize` bytes, stopping early at end of stream.  Every iteration
consumes at least one byte, so fuel `limit + 1` never runs out. -/
def getChunks : Nat → Bytes → Nat → Nat → Nat → List Bytes
  | 0, _, _, _, _ => []
  | fuel + 1, s, pos, chunkSize, limit =>
    if limit = 0 then []
    else
      let chunk := readUpTo s pos (min limit chunkSize)
      if chunk.length = 0 then []
      else chunk :: getChunks fuel s (pos + chunk.length) chunkSize (limit - chunk.length)

/-- The per-atom limit of the copy loop of `process`: `limit or float('inf')`
(`0` means no limit) capped by the atom size.  `none` models the default
`float('inf')`. -/
def curLimitOf (limit : Option Nat) (size : Nat) : Nat :=
  match limit with
  | none => size
  | some 0 => size
  | some n => min n size

/-- One atom copy of the writer loop of `process`: seek to the atom and copy
`cur_limit` bytes in bounded chunks. -/
def copyAtomBytes (s : Bytes) (a : Atom) (limit : Option Nat) : Bytes :=
  let cl := curLimitOf limit a.size
  (getChunks (cl + 1) s a.position CHUNK_SIZE cl).flatten

/-- The atom types skipped by the writer loop of `process`. -/
def skipTypes (cleanup : Bool) : List Bytes :=
  if cleanup then [FTYP, MOOV, FREE] else [FTYP, MOOV]

/-- `process`: index the file, plan the offset, reject already-set-up files
and compressed headers, patch the moov buffer, and emit the output bytes:
every `ftyp` atom first, then the patched moov (metadata-first layout),
then every remaining non-skipped atom copied with the optional per-atom
limit, then the patched moov (metadata-last layout).  `Except.error` models
the run raising before the output file is written. -/
def process (s : Bytes) (limit : Option Nat) (toEnd cleanup : Bool) :
    Except QtError Bytes :=
  let index := getIndexAtoms s
  match ensureValidIndex index with
  | Except.error e => Except.error e
  | Except.ok _ =>
    match planOffset index toEnd cleanup with
    | none => Except.error (QtError.other "moov atom never assigned")
    | some (offset, moovAtom) =>
      if offset = 0 then Except.error (QtError.fastStartSetup setupMsg)
      else
        match moovIsCompressed s moovAtom with
        | Except.error e => Except.error (QtError.other e)
        | Except.ok true => Except.error (QtError.unsupportedFormat compressedMsg)
        | Except.ok false =>
          match patchMoov s moovAtom offset with
          | Except.error e => Except.error (QtError.other e)
          | Except.ok moov =>
            let ftypPart :=
              ((index.filter (fun a => decide (a.name = FTYP))).map
                (fun a => readUpTo s a.position a.size)).flatten
            let rest := index.filter (fun a => decide (a.name ∉ skipTypes cleanup))
            let restPart := (rest.map (fun a => copyAtomBytes s a limit)).flatten
            Except.ok (ftypPart ++ (if toEnd then [] else moov) ++ restPart ++
              (if toEnd then moov else []))

/-- Modelled from the spec: the sequence of direct children of a container
atom's byte range, each child followed by the next at `position + size`.
This is the spec-side notion of "direct children, one level deep" used to
state properties of the compressed-header detector; it is not part of the
code. -/
def specChildAtoms : Nat → Bytes → Nat → Nat → Option (List Atom)
  | 0, _, _, _ => none
  | fuel + 1, s, pos, stop =>
    if pos < stop then
      match readAtomEx s pos with
      | none => none
      | some (a, _) =>
        match specChildAtoms fuel s (a.position + a.size) stop with
        | none => none
        | some l => some (a :: l)
    else some []

/-- The stream position just past the header of an atom as read at its
recorded position; `0` when no atom parses there.  Used to state
well-formedness of an index entry without quantifying over the parse
result. -/
def headerEndOf (s : Bytes) (a : Atom) : Nat :=
  match readAtomEx s a.position with
  | some (_, p') => p'
  | none => 0

/-! ## Basic facts about byte-string reads and writes -/

theorem readUpTo_length (s : Bytes) (pos n : Nat) :
    (readUpTo s pos n).length = min n (s.length - pos) := by
  simp [readUpTo]

theorem readUpTo_take {i k m : Nat} (l : Bytes) (h : i + k ≤ m) :
    readUpTo (l.take m) i k = readUpTo l i k := by
  simp only [readUpTo, List.drop_take, List.take_take]
  congr 1
  omega

theorem readUpTo_append_left {i k : Nat} (l₁ l₂ : Bytes) (h : i + k ≤ l₁.length) :
    readUpTo (l₁ ++ l₂) i k = readUpTo l₁ i k := by
  have h1 : readUpTo ((l₁ ++ l₂).take l₁.length) i k = readUpTo (l₁ ++ l₂) i k :=
    readUpTo_take _ h
  rw [List.take_left] at h1
  exact h1.symm

theorem readUpTo_append_right (l₁ l₂ : Bytes) (i k : Nat) :
    readUpTo (l₁ ++ l₂) (l₁.length + i) k = readUpTo l₂ i k := by
  simp only [readUpTo]
  congr 1
  rw [← List.drop_drop, List.drop_left]

theorem readUpTo_slice {i k size : Nat} (s : Bytes) (pos : Nat) (h : i + k ≤ size) :
    readUpTo (readUpTo s pos size) i k = readUpTo s (pos + i) k := by
  simp only [readUpTo, List.drop_take, List.take_take, List.drop_drop]
  congr 1
  omega

theorem readBytes_congr {s t : Bytes} {pos₁ pos₂ n : Nat}
    (h : readUpTo s pos₁ n = readUpTo t pos₂ n) :
    readBytes s pos₁ n = readBytes t pos₂ n := by
  simp [readBytes, h]

theorem readBytes_some_elim {s : Bytes} {pos n : Nat} {b : Bytes}
    (h : readBytes s pos n = some b) :
    b = readUpTo s pos n ∧ b.length = n ∧ n ≤ s.length - pos := by
  simp only [readBytes] at h
  split at h
  · rename_i hl
    cases h
    refine ⟨rfl, hl, ?_⟩
    rw [readUpTo_length] at hl
    omega
  · cases h

theorem readBytes_some_bound {s : Bytes} {pos n : Nat} {b : Bytes}
    (h : readBytes s pos n = some b) (hn : n ≠ 0) : pos + n ≤ s.length := by
  have := (readBytes_some_elim h).2.2
  omega

theorem readBytes_of_le {s : Bytes} {pos n : Nat} (h : pos + n ≤ s.length) :
    readBytes s pos n = some (readUpTo s pos n) := by
  simp only [readBytes]
  rw [readUpTo_length, if_pos (by omega)]

theorem readBytes_none_of_short {s : Bytes} {pos n : Nat}
    (h : s.length < pos + n) (hn : n ≠ 0) : readBytes s pos n = none := by
  simp only [readBytes]
  rw [readUpTo_length, if_neg (by omega)]

/-! ## Big-endian packing and unpacking -/

theorem beVal_append_singleton (b : Bytes) (x : Nat) :
    beVal (b ++ [x]) = beVal b * 256 + x := by
  simp [beVal, List.foldl_append]

theorem bePack_length (w v : Nat) : (bePack w v).length = w := by
  induction w generalizing v with
  | zero => rfl
  | succ w ih => simp [bePack, ih]

theorem beVal_bePack (w v : Nat) : beVal (bePack w v) = v % 256 ^ w := by
  induction w generalizing v with
  | zero =>
    simp only [bePack, beVal, List.foldl_nil, Nat.pow_zero]
    omega
  | succ w ih =>
    rw [bePack, beVal_append_singleton, ih]
    have h1 : v / 256 % 256 ^ w = v % (256 * 256 ^ w) / 256 :=
      (Nat.mod_mul_right_div_self v 256 (256 ^ w)).symm
    have h2 : v % 256 = v % (256 * 256 ^ w) % 256 := by
      rw [Nat.mod_mod_of_dvd _ ⟨256 ^ w, rfl⟩]
    rw [h1, h2, Nat.pow_succ, Nat.mul_comm (256 ^ w) 256]
    omega

theorem beChunks_flatten_pack {w : Nat} (vs : List Nat)
    (h : ∀ v ∈ vs, v < 256 ^ w) :
    beChunks w vs.length ((vs.map (bePack w)).flatten) = vs := by
  induction vs with
  | nil => rfl
  | cons v vs ih =>
    simp only [List.map_cons, List.flatten_cons, List.length_cons, beChunks]
    have hlen : (bePack w v).length = w := bePack_length w v
    rw [List.take_append_of_le_length (by omega), List.drop_append_of_le_length (by omega)]
    rw [List.take_of_length_le (by omega), List.drop_eq_nil_of_le (by omega)]
    simp only [List.nil_append]
    rw [beVal_bePack, Nat.mod_eq_of_lt (h v (by simp)), ih (fun x hx => h x (by simp [hx]))]

/-! ## Overwriting a region of a buffer -/

theorem writeBytes_length {buf : Bytes} {pos : Nat} (d : Bytes)
    (h : pos + d.length ≤ buf.length) :
    (writeBytes buf pos d).length = buf.length := by
  simp only [writeBytes, List.length_append, List.length_take, List.length_drop]
  omega

theorem writeBytes_take {buf : Bytes} {pos : Nat} (d : Bytes) (h : pos ≤ buf.length) :
    (writeBytes buf pos d).take pos = buf.take pos := by
  simp only [writeBytes, List.append_assoc]
  rw [List.take_append_of_le_length (by simp; omega)]
  simp [List.take_take]

theorem writeBytes_drop {buf : Bytes} {pos : Nat} (d : Bytes) (h : pos ≤ buf.length) :
    (writeBytes buf pos d).drop (pos + d.length) = buf.drop (pos + d.length) := by
  simp only [writeBytes]
  have h1 : (buf.take pos ++ d).length = pos + d.length := by
    simp; omega
  rw [List.drop_append_eq_append_drop, List.drop_eq_nil_of_le (by omega), h1]
  simp

theorem writeBytes_read {buf : Bytes} {pos : Nat} (d : Bytes) (h : pos ≤ buf.length) :
    readBytes (writeBytes buf pos d) pos d.length = some d := by
  have h2 : List.drop pos (writeBytes buf pos d) = d ++ buf.drop (pos + d.length) := by
    simp only [writeBytes, List.append_assoc]
    rw [List.drop_append_of_le_length (by simp [h]),
      List.drop_eq_nil_of_le (by simp), List.nil_append]
  simp only [readBytes, readUpTo, h2]
  rw [List.take_append_of_le_length (le_refl _)]
  simp

/-- Decidable equality of `Except` results, needed to evaluate concrete
runs of the embedded code. -/
def exceptDecEq {ε α : Type} [DecidableEq ε] [DecidableEq α] :
    DecidableEq (Except ε α) := fun x y =>
  match x, y with
  | Except.error e, Except.error f =>
    if h : e = f then Decidable.isTrue (congrArg Except.error h)
    else Decidable.isFalse (fun hc => h (Except.error.inj hc))
  | Except.ok a, Except.ok b =>
    if h : a = b then Decidable.isTrue (congrArg Except.ok h)
    else Decidable.isFalse (fun hc => h (Except.ok.inj hc))
  | Except.error _, Except.ok _ => Decidable.isFalse (fun hc => Except.noConfusion hc)
  | Except.ok _, Except.error _ => Decidable.isFalse (fun hc => Except.noConfusion hc)

instance {ε α : Type} [DecidableEq ε] [DecidableEq α] : DecidableEq (Except ε α) :=
  exceptDecEq

/-! ## Facts about atom header reads -/

theorem readAtom_bound {s : Bytes} {pos : Nat} {sz : Nat} {nm : Bytes}
    (h : readAtom s pos = some (sz, nm)) : pos + 8 ≤ s.length := by
  unfold readAtom at h
  cases h8 : readBytes s pos 8 with
  | none => rw [h8] at h; cases h
  | some b =>
    exact readBytes_some_bound h8 (by omega)

theorem readAtomEx_elim {s : Bytes} {pos : Nat} {a : Atom} {p' : Nat}
    (h : readAtomEx s pos = some (a, p')) :
    a.position = pos ∧ pos + 8 ≤ s.length ∧ p' ≤ s.length ∧
      (p' = pos + 8 ∨ p' = pos + 16) := by
  unfold readAtomEx at h
  cases hra : readAtom s pos with
  | none => rw [hra] at h; cases h
  | some v =>
    obtain ⟨sz, nm⟩ := v
    rw [hra] at h
    simp only at h
    have hb := readAtom_bound hra
    split at h
    · cases h16 : readBytes s (pos + 8) 8 with
      | none => rw [h16] at h; cases h
      | some c =>
        rw [h16] at h
        simp only [Option.some.injEq, Prod.mk.injEq] at h
        obtain ⟨ha, hp⟩ := h
        have hc := readBytes_some_bound h16 (by omega)
        exact ⟨by rw [← ha], hb, by omega, Or.inr hp.symm⟩
    · simp only [Option.some.injEq, Prod.mk.injEq] at h
      obtain ⟨ha, hp⟩ := h
      exact ⟨by rw [← ha], hb, by omega, Or.inl hp.symm⟩

theorem readAtomEx_none_of_short {s : Bytes} {pos : Nat}
    (h : s.length < pos + 8) : readAtomEx s pos = none := by
  unfold readAtomEx readAtom
  rw [readBytes_none_of_short h (by omega)]

/-- Transport a successful atom-header read to another stream/position whose
bytes agree on the header region. -/
theorem readAtomEx_shift {s t : Bytes} {pos q : Nat} {a : Atom} {p' : Nat}
    (h : readAtomEx s pos = some (a, p'))
    (hc8 : readBytes t q 8 = readBytes s pos 8)
    (hc16 : p' = pos + 16 → readBytes t (q + 8) 8 = readBytes s (pos + 8) 8) :
    readAtomEx t q = some (⟨a.name, q, a.size⟩, q + (p' - pos)) := by
  unfold readAtomEx at h ⊢
  cases hra : readAtom s pos with
  | none => rw [hra] at h; cases h
  | some v =>
    obtain ⟨sz, nm⟩ := v
    rw [hra] at h
    simp only at h
    have hta : readAtom t q = some (sz, nm) := by
      unfold readAtom at hra ⊢
      rw [hc8]
      cases h8 : readBytes s pos 8 with
      | none => rw [h8] at hra; cases hra
      | some b => rw [h8] at hra; exact hra
    rw [hta]
    simp only
    split at h
    · rename_i hsz
      rw [if_pos hsz]
      cases h16 : readBytes s (pos + 8) 8 with
      | none => rw [h16] at h; cases h
      | some c =>
        rw [h16] at h
        simp only [Option.some.injEq, Prod.mk.injEq] at h
        obtain ⟨ha, hp⟩ := h
        rw [hc16 hp.symm, h16]
        simp only [Option.some.injEq, Prod.mk.injEq]
        constructor
        · rw [← ha]
        · omega
    · rename_i hsz
      rw [if_neg hsz]
      simp only [Option.some.injEq, Prod.mk.injEq] at h
      obtain ⟨ha, hp⟩ := h
      simp only [Option.some.injEq, Prod.mk.injEq]
      constructor
      · rw [← ha]
      · omega

/-- A successful atom-header read is unaffected by appending bytes to the
stream. -/
theorem readAtomEx_append_left {l y : Bytes} {pos : Nat} {a : Atom} {p' : Nat}
    (h : readAtomEx l pos = some (a, p')) :
    readAtomEx (l ++ y) pos = some (a, p') := by
  obtain ⟨hpos, h8, hp, hcase⟩ := readAtomEx_elim h
  have := readAtomEx_shift h
    (readBytes_congr (readUpTo_append_left l y (by omega)))
    (fun h16 => readBytes_congr (readUpTo_append_left l y (by omega)))
  rw [this]
  congr 1
  rcases hcase with h' | h' <;>
    simp [Prod.ext_iff, ← hpos, Atom.ext_iff] <;> omega

/-- A successful atom-header read at the start of `l₂` appears, shifted, at
position `l₁.length` of `l₁ ++ l₂`. -/
theorem readAtomEx_append_right {l₁ l₂ : Bytes} {a : Atom} {p' : Nat}
    (h : readAtomEx l₂ 0 = some (a, p')) :
    readAtomEx (l₁ ++ l₂) l₁.length = some (⟨a.name, l₁.length, a.size⟩, l₁.length + p') := by
  have hc8 : readBytes (l₁ ++ l₂) l₁.length 8 = readBytes l₂ 0 8 := by
    refine readBytes_congr ?_
    have := readUpTo_append_right l₁ l₂ 0 8
    simpa using this
  have hc16 : p' = 0 + 16 → readBytes (l₁ ++ l₂) (l₁.length + 8) 8 = readBytes l₂ (0 + 8) 8 := by
    intro _
    refine readBytes_congr ?_
    have := readUpTo_append_right l₁ l₂ 8 8
    simpa using this
  have := readAtomEx_shift h hc8 hc16
  rw [this]
  congr 1

/-- A successful atom-header read at `pos` reappears at position `0` of the
slice of `size` bytes cut at `pos`, provided the header fits in the slice. -/
theorem readAtomEx_slice {s : Bytes} {pos size : Nat} {a : Atom} {p' : Nat}
    (h : readAtomEx s pos = some (a, p')) (hfit : p' ≤ pos + size) :
    readAtomEx (readUpTo s pos size) 0 = some (⟨a.name, 0, a.size⟩, p' - pos) := by
  obtain ⟨hpos, h8, hp, hcase⟩ := readAtomEx_elim h
  have hc8 : readBytes (readUpTo s pos size) 0 8 = readBytes s pos 8 := by
    refine readBytes_congr ?_
    have := @readUpTo_slice 0 8 size s pos (by omega)
    simpa using this
  have hc16 : p' = pos + 16 →
      readBytes (readUpTo s pos size) (0 + 8) 8 = readBytes s (pos + 8) 8 := by
    intro h16
    refine readBytes_congr ?_
    have := @readUpTo_slice 8 8 size s pos (by omega)
    simpa using this
  have := readAtomEx_shift h hc8 hc16
  rw [this]
  simp

/-- A successful atom-header read only depends on a prefix covering the
header; buffers of equal length agreeing on that prefix parse equally. -/
theorem readAtomEx_take_congr {b b' : Bytes} {a : Atom} {p' p : Nat}
    (h : readAtomEx b 0 = some (a, p'))
    (htake : b'.take p = b.take p) (hle : p' ≤ p) :
    readAtomEx b' 0 = some (a, p') := by
  obtain ⟨hpos, h8, hp, hcase⟩ := readAtomEx_elim h
  have agree : ∀ i k : Nat, i + k ≤ p → readUpTo b' i k = readUpTo b i k := by
    intro i k hik
    rw [← readUpTo_take b' hik, ← readUpTo_take b hik, htake]
  have hc8 : readBytes b' 0 8 = readBytes b 0 8 :=
    readBytes_congr (agree 0 8 (by omega))
  have hc16 : p' = 0 + 16 → readBytes b' (0 + 8) 8 = readBytes b (0 + 8) 8 :=
    fun h16 => readBytes_congr (agree 8 8 (by omega))
  have := readAtomEx_shift h hc8 hc16
  rw [this]
  congr 1
  rcases hcase with h' | h' <;>
    simp [Prod.ext_iff, ← hpos, Atom.ext_iff] <;> omega

/-! ## The chunked copy loop -/

theorem readUpTo_add (s : Bytes) (pos k n : Nat) :
    readUpTo s pos (k + n) = readUpTo s pos k ++ readUpTo s (pos + k) n := by
  simp only [readUpTo]
  rw [List.take_add]
  congr 1
  rw [List.drop_drop]

theorem readUpTo_take_length (s : Bytes) (pos n : Nat) :
    readUpTo s pos ((readUpTo s pos n).length) = readUpTo s pos n := by
  simp only [readUpTo, List.length_take]
  rcases Nat.le_total n ((s.drop pos).length) with hc | hc
  · rw [Nat.min_eq_left hc]
  · rw [Nat.min_eq_right hc, List.take_of_length_le hc, List.take_of_length_le (le_refl _)]

theorem getChunks_flatten {chunkSize : Nat} (hcs : 0 < chunkSize) :
    ∀ (fuel limit : Nat) (s : Bytes) (pos : Nat), limit < fuel →
      (getChunks fuel s pos chunkSize limit).flatten = readUpTo s pos limit := by
  intro fuel
  induction fuel with
  | zero => intro limit s pos h; omega
  | succ fuel ih =>
    intro limit s pos h
    by_cases hl : limit = 0
    · simp [hl, getChunks, readUpTo]
    · have hmin : 0 < min limit chunkSize := by omega
      have hcl : (readUpTo s pos (min limit chunkSize)).length
          = min (min limit chunkSize) (s.length - pos) := readUpTo_length s pos _
      rw [getChunks, if_neg hl]
      simp only
      by_cases hz : (readUpTo s pos (min limit chunkSize)).length = 0
      · rw [if_pos hz]
        have hsp : s.length ≤ pos := by omega
        simp only [List.flatten_nil, readUpTo]
        rw [List.drop_eq_nil_of_le hsp]
        simp
      · rw [if_neg hz, List.flatten_cons, ih _ s _ (by omega)]
        have hle : (readUpTo s pos (min limit chunkSize)).length ≤ limit := by omega
        generalize hcl2 : (readUpTo s pos (min limit chunkSize)).length = cl at hle ⊢
        have hchunk : readUpTo s pos (min limit chunkSize) = readUpTo s pos cl := by
          rw [← hcl2]
          exact (readUpTo_take_length s pos _).symm
        rw [hchunk, ← readUpTo_add]
        congr 1
        omega

/-- The writer's per-atom copy is exactly the input slice of `cur_limit`
bytes at the atom's position. -/
theorem copyAtomBytes_eq (s : Bytes) (a : Atom) (limit : Option Nat) :
    copyAtomBytes s a limit = readUpTo s a.position (curLimitOf limit a.size) := by
  unfold copyAtomBytes
  exact getChunks_flatten (by decide) _ _ s a.position (Nat.lt_succ_self _)

/-- C10: at the `process` interface, a per-atom write limit of `0` is
treated as "no limit": the copy step then behaves exactly like the default
unlimited limit and writes the whole atom, while a nonzero limit `n` writes
exactly `min n size` bytes of an in-bounds atom. -/
theorem C10_limit_zero_unlimited :
    (∀ (s : Bytes) (a : Atom), copyAtomBytes s a (some 0) = copyAtomBytes s a none) ∧
    (∀ (s : Bytes) (a : Atom), a.position + a.size ≤ s.length →
      copyAtomBytes s a none = readUpTo s a.position a.size ∧
      (copyAtomBytes s a none).length = a.size) ∧
    (∀ (s : Bytes) (a : Atom) (n : Nat), 0 < n → a.position + a.size ≤ s.length →
      (copyAtomBytes s a (some n)).length = min n a.size) := by
  refine ⟨fun s a => ?_, fun s a h => ?_, fun s a n hn h => ?_⟩
  · rw [copyAtomBytes_eq, copyAtomBytes_eq]
    rfl
  · rw [copyAtomBytes_eq]
    refine ⟨rfl, ?_⟩
    rw [readUpTo_length]
    simp only [curLimitOf]
    omega
  · obtain ⟨k, rfl⟩ : ∃ k, n = k + 1 := ⟨n - 1, by omega⟩
    rw [copyAtomBytes_eq, readUpTo_length]
    simp only [curLimitOf]
    omega

/-- C10 witness: a 9-byte atom at position 0 of a 9-byte stream is copied
whole with limit `0` and with no limit, and truncated to 4 bytes with
limit `4`. -/
theorem C10_limit_zero_unlimited_witness :
    copyAtomBytes ([0, 0, 0, 9] ++ MDAT ++ [7]) ⟨MDAT, 0, 9⟩ (some 0) =
      copyAtomBytes ([0, 0, 0, 9] ++ MDAT ++ [7]) ⟨MDAT, 0, 9⟩ none ∧
    (copyAtomBytes ([0, 0, 0, 9] ++ MDAT ++ [7]) ⟨MDAT, 0, 9⟩ none).length = 9 ∧
    (copyAtomBytes ([0, 0, 0, 9] ++ MDAT ++ [7]) ⟨MDAT, 0, 9⟩ (some 4)).length = min 4 9 :=
  ⟨C10_limit_zero_unlimited.1 _ _,
   (C10_limit_zero_unlimited.2.1 _ _ (by decide)).2,
   C10_limit_zero_unlimited.2.2 _ _ 4 (by decide) (by decide)⟩

/-! ## C5: zero delta means the expected no-processing-needed failure -/

/-- C5: when the planner's computed offset is `0`, `process` fails with the
user-facing `FastStartSetupError` (a constructor distinct from the
malformed-file and unsupported-format errors) and produces no output
bytes. -/
theorem C5_zero_delta_setup_error (s : Bytes) (limit : Option Nat)
    (toEnd cleanup : Bool) (m : Atom)
    (hvalid : ensureValidIndex (getIndexAtoms s) = Except.ok ())
    (hplan : planOffset (getIndexAtoms s) toEnd cleanup = some (0, m)) :
    process s limit toEnd cleanup = Except.error (QtError.fastStartSetup setupMsg) ∧
    (∀ msg, QtError.fastStartSetup setupMsg ≠ QtError.malformedFile msg) ∧
    (∀ msg, QtError.fastStartSetup setupMsg ≠ QtError.unsupportedFormat msg) := by
  refine ⟨?_, fun msg h => QtError.noConfusion h, fun msg h => QtError.noConfusion h⟩
  simp only [process, hvalid, hplan]
  simp

/-- C5 witness: a file that is `moov` then `mdat` with nothing to clean up
is reported as already set up. -/
theorem C5_zero_delta_setup_error_witness :
    process ([0, 0, 0, 8] ++ MOOV ++ ([0, 0, 0, 8] ++ MDAT)) none false true =
      Except.error (QtError.fastStartSetup setupMsg) :=
  (C5_zero_delta_setup_error _ none false true ⟨MOOV, 0, 8⟩ (by decide) (by decide)).1

/-! ## C4: missing moov or mdat fails during indexing -/

/-- C4: an index with no `moov` atom makes `process` fail with the
malformed-file error naming `moov`; an index with a `moov` but no `mdat`
atom fails naming `mdat`.  Both failures happen in `get_index`, before the
planner, the patcher or any output write runs, and `process` returns no
output bytes. -/
theorem C4_missing_atom_malformed (s : Bytes) (limit : Option Nat)
    (toEnd cleanup : Bool) :
    ((∀ a ∈ getIndexAtoms s, a.name ≠ MOOV) →
      process s limit toEnd cleanup = Except.error (QtError.malformedFile moovMissingMsg)) ∧
    ((∃ a ∈ getIndexAtoms s, a.name = MOOV) → (∀ a ∈ getIndexAtoms s, a.name ≠ MDAT) →
      process s limit toEnd cleanup = Except.error (QtError.malformedFile mdatMissingMsg)) := by
  constructor
  · intro h
    have h1 : (getIndexAtoms s).any (fun a => decide (a.name = MOOV)) = false := by
      simp only [List.any_eq_false, decide_eq_true_eq]
      exact h
    simp only [process, ensureValidIndex, h1]
    simp
  · intro hmoov h
    have h1 : (getIndexAtoms s).any (fun a => decide (a.name = MOOV)) = true := by
      simp only [List.any_eq_true, decide_eq_true_eq]
      exact hmoov
    have h2 : (getIndexAtoms s).any (fun a => decide (a.name = MDAT)) = false := by
      simp only [List.any_eq_false, decide_eq_true_eq]
      exact h
    simp only [process, ensureValidIndex, h1, h2]
    simp

/-- C4 witness: a file holding only an `mdat` atom fails naming `moov`; a
file holding only a `moov` atom fails naming `mdat`. -/
theorem C4_missing_atom_malformed_witness :
    process ([0, 0, 0, 8] ++ MDAT) none false true =
      Except.error (QtError.malformedFile moovMissingMsg) ∧
    process ([0, 0, 0, 8] ++ MOOV) none false true =
      Except.error (QtError.malformedFile mdatMissingMsg) :=
  ⟨(C4_missing_atom_malformed _ none false true).1 (by decide),
   (C4_missing_atom_malformed _ none false true).2 (by decide) (by decide)⟩

/-! ## C2: the 999999 sentinel makes the planner miss free atoms -/

/-- A top-level index (as `get_index` would produce for a large file) with a
16-byte `free` atom physically before the `mdat` atom, both located beyond
byte 999999. -/
def sentinelIdx : List Atom :=
  [⟨MOOV, 0, 1000016⟩, ⟨FREE, 1000016, 16⟩, ⟨MDAT, 1000032, 100⟩]

/-- C2, evaluated at the failing input: the `free` atom at byte 1000016 lies
physically before the `mdat` atom at byte 1000032 and cleanup is on, yet
the planning loop counts no free bytes (its running `mdat_pos` starts at
the sentinel `999999`, which the atom's position already exceeds) and the
resulting offset is `0` instead of `-16`. -/
theorem C2_sentinel_free_missed :
    (⟨FREE, 1000016, 16⟩ : Atom) ∈ sentinelIdx ∧
    (⟨MDAT, 1000032, 100⟩ : Atom) ∈ sentinelIdx ∧
    1000016 + 16 ≤ 1000032 ∧
    (planScan true sentinelIdx).freeSize = 0 ∧
    planOffset sentinelIdx false true = some (0, ⟨MOOV, 0, 1000016⟩) := by
  refine ⟨?_, ?_, ?_, ?_, ?_⟩ <;> decide

/-! ## C1: the offset patcher rewrites every entry in place -/

theorem beChunks_length (w : Nat) : ∀ (cnt : Nat) (b : Bytes),
    (beChunks w cnt b).length = cnt := by
  intro cnt
  induction cnt with
  | zero => intro b; rfl
  | succ cnt ih => intro b; simp [beChunks, ih]

theorem packList_length (w : Nat) (vs : List Int) :
    ((vs.map (fun v => bePack w v.toNat)).flatten).length = w * vs.length := by
  induction vs with
  | nil => simp
  | cons v vs ih =>
    simp only [List.map_cons, List.flatten_cons, List.length_append, ih, bePack_length,
      List.length_cons, Nat.mul_succ]
    omega

/-- The moov buffer of the spec's synthetic example: a `moov` atom holding a
single 32-bit chunk-offset table with entries `[1000, 2000, 3000]`. -/
def synthMoov : Bytes :=
  [0, 0, 0, 36] ++ MOOV ++ ([0, 0, 0, 28] ++ STCO ++ [0, 0, 0, 0] ++ [0, 0, 0, 3] ++
    [0, 0, 3, 232] ++ [0, 0, 7, 208] ++ [0, 0, 11, 184])

/-- The expected result of patching `synthMoov` with delta `-500`: identical
bytes except the three entries, which now read `[500, 1500, 2500]`. -/
def synthMoovPatched : Bytes :=
  [0, 0, 0, 36] ++ MOOV ++ ([0, 0, 0, 28] ++ STCO ++ [0, 0, 0, 0] ++ [0, 0, 0, 3] ++
    [0, 0, 1, 244] ++ [0, 0, 5, 220] ++ [0, 0, 9, 196])

/-- C1: the per-table patch step of `_patch_moov` replaces the `cnt` entries
of width `w` at `entriesPos` by `entry + delta`, written back at the same
buffer positions with the same width, count and order, leaving every byte
before and after the entry run unchanged and the buffer length unchanged;
and on the synthetic moov with one 32-bit table `[1000, 2000, 3000]` and
delta `-500` the whole patcher produces exactly the buffer whose table
reads `[500, 1500, 2500]`, same entry count and table byte size. -/
theorem C1_offset_patcher :
    (∀ (buf : Bytes) (ep w cnt : Nat) (offset : Int) (eb buf' : Bytes),
      readBytes buf ep (w * cnt) = some eb →
      ep + w * cnt ≤ buf.length →
      patchEntries buf ep w cnt offset = Except.ok buf' →
      buf'.length = buf.length ∧
      buf'.take ep = buf.take ep ∧
      buf'.drop (ep + w * cnt) = buf.drop (ep + w * cnt) ∧
      beChunks w cnt (readUpTo buf' ep (w * cnt)) =
        (beChunks w cnt eb).map (fun (e : Nat) => ((e : Int) + offset).toNat)) ∧
    patchMoov synthMoov ⟨MOOV, 0, 36⟩ (-500) = Except.ok synthMoovPatched := by
  constructor
  · intro buf ep w cnt offset eb buf' hrd hep hok
    unfold patchEntries at hok
    rw [hrd] at hok
    simp only at hok
    split at hok
    · rename_i hrange
      have hb := Except.ok.inj hok
      set d := (((beChunks w cnt eb).map (fun (e : Nat) => (e : Int) + offset)).map
        (fun v => bePack w v.toNat)).flatten with hd
      have hdlen : d.length = w * cnt := by
        rw [hd, packList_length, List.length_map, beChunks_length]
      have hb' : buf' = writeBytes buf ep d := hb.symm
      have hboundd : ep + d.length ≤ buf.length := by omega
      have heple : ep ≤ buf.length := by omega
      refine ⟨?_, ?_, ?_, ?_⟩
      · rw [hb', writeBytes_length d hboundd]
      · rw [hb', writeBytes_take d heple]
      · rw [hb', ← hdlen, writeBytes_drop d heple]
      · have hread : readBytes buf' ep d.length = some d := by
          rw [hb']
          exact writeBytes_read d heple
        have hupto : readUpTo buf' ep (w * cnt) = d := by
          rw [← hdlen]
          exact ((readBytes_some_elim hread).1).symm
        rw [hupto]
        have hmm : d = (((beChunks w cnt eb).map
            (fun (e : Nat) => ((e : Int) + offset).toNat)).map (bePack w)).flatten := by
          rw [hd, List.map_map, List.map_map]
          rfl
        rw [hmm]
        set vs := (beChunks w cnt eb).map (fun (e : Nat) => ((e : Int) + offset).toNat)
          with hvs
        have hvall : ∀ v ∈ vs, v < 256 ^ w := by
          intro v hv
          rw [hvs] at hv
          obtain ⟨x, hx, rfl⟩ := List.mem_map.mp hv
          have hr := hrange ((x : Int) + offset) (List.mem_map.mpr ⟨x, hx, rfl⟩)
          have hcast : (256 : Int) ^ w = ((256 ^ w : Nat) : Int) := by
            push_cast
            ring
          rw [hcast] at hr
          omega
        have hlen2 : cnt = vs.length := by
          rw [hvs, List.length_map, beChunks_length]
        have hmain := beChunks_flatten_pack vs hvall
        rw [← hlen2] at hmain
        exact hmain
    · cases hok
  · decide

/-- C1 witness: the general patch-step property instantiated at the
synthetic 32-bit table of `synthMoov` (entries at byte 24, width 4,
count 3, delta `-500`). -/
theorem C1_offset_patcher_witness :
    synthMoovPatched.length = synthMoov.length ∧
    synthMoovPatched.take 24 = synthMoov.take 24 ∧
    synthMoovPatched.drop (24 + 4 * 3) = synthMoov.drop (24 + 4 * 3) ∧
    beChunks 4 3 (readUpTo synthMoovPatched 24 (4 * 3)) =
      (beChunks 4 3 [0, 0, 3, 232, 0, 0, 7, 208, 0, 0, 11, 184]).map
        (fun (e : Nat) => ((e : Int) + (-500)).toNat) :=
  C1_offset_patcher.1 synthMoov 24 4 3 (-500) _ synthMoovPatched
    (by decide) (by decide) (by decide)

/-! ## C3: the compressed-header detector and 64-bit-size children -/

/-- A file whose `moov` atom has two direct children: an extended-size
(64-bit size field) atom `"blah"` followed by a `cmov` atom. -/
def extChildMoovFile : Bytes :=
  [0, 0, 0, 8] ++ MDAT ++
  ([0, 0, 0, 40] ++ MOOV ++
    ([0, 0, 0, 1] ++ [98, 108, 97, 104] ++ [0, 0, 0, 0, 0, 0, 0, 24] ++
      [0, 0, 0, 0, 0, 0, 0, 0]) ++
    ([0, 0, 0, 8] ++ CMOV))

/-- C3, evaluated at the failing input: the `moov` atom of
`extChildMoovFile` has a direct `cmov` child (second in its child
sequence), yet the detector's scan — which always seeks `size - 8` bytes
past the post-header position, 8 bytes too far for a 64-bit-size child —
misses it and reports "not compressed", and `process` completes
successfully, emitting the patched moov followed by the mdat atom instead
of failing with the unsupported-format error. -/
theorem C3_cmov_missed_after_extended_child :
    specChildAtoms 100 extChildMoovFile (8 + 8) (8 + 40) =
      some [⟨[98, 108, 97, 104], 16, 24⟩, ⟨CMOV, 40, 8⟩] ∧
    moovIsCompressed extChildMoovFile ⟨MOOV, 8, 40⟩ = Except.ok false ∧
    process extChildMoovFile none false true =
      Except.ok (readUpTo extChildMoovFile 8 40 ++ readUpTo extChildMoovFile 0 8) := by
  exact ⟨by decide, by decide, by decide⟩

/-! ## C8: behaviour of the top-level indexer -/

/-- The relation between two consecutive atoms recorded by `_read_atoms`:
after a nonzero-size atom the scan seeks to `position + size`; after a
zero-size atom other than `mdat` it continues at the position just past the
header it read. -/
def idxStep (s : Bytes) (a b : Atom) : Prop :=
  (a.size ≠ 0 ∧ b.position = a.position + a.size) ∨
  (a.size = 0 ∧ a.name ≠ MDAT ∧
    ∃ p', readAtomEx s a.position = some (a, p') ∧ b.position = p')

theorem readAtoms_head_position {fuel : Nat} {s : Bytes} {pos : Nat} {b : Atom}
    {l : List Atom} (h : readAtoms fuel s pos = b :: l) : b.position = pos := by
  match fuel with
  | 0 => simp [readAtoms] at h
  | fuel + 1 =>
    rw [readAtoms] at h
    cases hx : readAtomEx s pos with
    | none => rw [hx] at h; simp at h
    | some v =>
      obtain ⟨a₀, p'⟩ := v
      rw [hx] at h
      simp only [List.cons.injEq] at h
      rw [← h.1]
      exact (readAtomEx_elim hx).1

theorem readAtoms_sound : ∀ (fuel : Nat) (s : Bytes) (pos : Nat) (a : Atom),
    a ∈ readAtoms fuel s pos → ∃ p', readAtomEx s a.position = some (a, p') := by
  intro fuel
  induction fuel with
  | zero => intro s pos a ha; simp [readAtoms] at ha
  | succ fuel ih =>
    intro s pos a ha
    rw [readAtoms] at ha
    cases hx : readAtomEx s pos with
    | none => rw [hx] at ha; simp at ha
    | some v =>
      obtain ⟨a₀, p'⟩ := v
      rw [hx] at ha
      rcases List.mem_cons.mp ha with rfl | hmem
      · exact ⟨p', by rw [(readAtomEx_elim hx).1]; exact hx⟩
      · by_cases hs : a₀.size = 0
        · rw [if_pos hs] at hmem
          by_cases hn : a₀.name = MDAT
          · rw [if_pos hn] at hmem; simp at hmem
          · rw [if_neg hn] at hmem; exact ih s p' a hmem
        · rw [if_neg hs] at hmem; exact ih s _ a hmem

theorem readAtoms_chain : ∀ (fuel : Nat) (s : Bytes) (pos : Nat),
    List.Chain' (idxStep s) (readAtoms fuel s pos) := by
  intro fuel
  induction fuel with
  | zero => intro s pos; simp [readAtoms]
  | succ fuel ih =>
    intro s pos
    rw [readAtoms]
    cases hx : readAtomEx s pos with
    | none => simp
    | some v =>
      obtain ⟨a₀, p'⟩ := v
      rw [List.chain'_cons']
      constructor
      · intro b hb
        by_cases hs : a₀.size = 0
        · rw [if_pos hs] at hb
          by_cases hn : a₀.name = MDAT
          · rw [if_pos hn] at hb; simp at hb
          · rw [if_neg hn] at hb
            right
            refine ⟨hs, hn, p', by rw [(readAtomEx_elim hx).1]; exact hx, ?_⟩
            cases hr : readAtoms fuel s p' with
            | nil => rw [hr] at hb; simp at hb
            | cons c cl =>
              rw [hr] at hb
              simp only [List.head?_cons, Option.mem_def, Option.some.injEq] at hb
              rw [← hb]
              exact readAtoms_head_position hr
        · rw [if_neg hs] at hb
          left
          refine ⟨hs, ?_⟩
          cases hr : readAtoms fuel s (a₀.position + a₀.size) with
          | nil => rw [hr] at hb; simp at hb
          | cons c cl =>
            rw [hr] at hb
            simp only [List.head?_cons, Option.mem_def, Option.some.injEq] at hb
            rw [← hb]
            exact readAtoms_head_position hr
      · by_cases hs : a₀.size = 0
        · rw [if_pos hs]
          by_cases hn : a₀.name = MDAT
          · rw [if_pos hn]; simp
          · rw [if_neg hn]; exact ih s p'
        · rw [if_neg hs]; exact ih s _

theorem readAtoms_zero_mdat_last : ∀ (fuel : Nat) (s : Bytes) (pos : Nat)
    (l₁ : List Atom) (a : Atom) (l₂ : List Atom),
    readAtoms fuel s pos = l₁ ++ a :: l₂ → a.size = 0 → a.name = MDAT → l₂ = [] := by
  intro fuel
  induction fuel with
  | zero =>
    intro s pos l₁ a l₂ h _ _
    rw [readAtoms] at h
    exact absurd h.symm (List.append_ne_nil_of_right_ne_nil l₁ (by simp))
  | succ fuel ih =>
    intro s pos l₁ a l₂ h hsize hname
    rw [readAtoms] at h
    cases hx : readAtomEx s pos with
    | none =>
      rw [hx] at h
      exact absurd h.symm (List.append_ne_nil_of_right_ne_nil l₁ (by simp))
    | some v =>
      obtain ⟨a₀, p'⟩ := v
      rw [hx] at h
      cases l₁ with
      | nil =>
        simp only [List.nil_append, List.cons.injEq] at h
        obtain ⟨rfl, h2⟩ := h
        rw [if_pos hsize, if_pos hname] at h2
        exact h2.symm
      | cons b l₁ =>
        simp only [List.cons_append, List.cons.injEq] at h
        obtain ⟨rfl, h2⟩ := h
        by_cases hs : a₀.size = 0
        · rw [if_pos hs] at h2
          by_cases hn : a₀.name = MDAT
          · rw [if_pos hn] at h2
            exact absurd h2.symm (List.append_ne_nil_of_right_ne_nil l₁ (by simp))
          · rw [if_neg hn] at h2
            exact ih s p' l₁ a l₂ h2 hsize hname
        · rw [if_neg hs] at h2
          exact ih s _ l₁ a l₂ h2 hsize hname

theorem readAtoms_nil_elim : ∀ (fuel : Nat) (s : Bytes) (pos : Nat),
    s.length + 1 ≤ fuel + pos → readAtoms fuel s pos = [] → readAtomEx s pos = none := by
  intro fuel s pos hb h
  match fuel with
  | 0 => exact readAtomEx_none_of_short (by omega)
  | fuel + 1 =>
    rw [readAtoms] at h
    cases hx : readAtomEx s pos with
    | none => rfl
    | some v => rw [hx] at h; simp at h

theorem readAtoms_last : ∀ (fuel : Nat) (s : Bytes) (pos : Nat) (l : List Atom) (a : Atom),
    s.length + 1 ≤ fuel + pos → readAtoms fuel s pos = l ++ [a] →
    (a.size = 0 ∧ a.name = MDAT) ∨
    (a.size ≠ 0 ∧ readAtomEx s (a.position + a.size) = none) ∨
    (a.size = 0 ∧ a.name ≠ MDAT ∧
      ∃ p', readAtomEx s a.position = some (a, p') ∧ readAtomEx s p' = none) := by
  intro fuel
  induction fuel with
  | zero =>
    intro s pos l a hb h
    rw [readAtoms] at h
    exact absurd h.symm (List.append_ne_nil_of_right_ne_nil l (by simp))
  | succ fuel ih =>
    intro s pos l a hb h
    rw [readAtoms] at h
    cases hx : readAtomEx s pos with
    | none =>
      rw [hx] at h
      exact absurd h.symm (List.append_ne_nil_of_right_ne_nil l (by simp))
    | some v =>
      obtain ⟨a₀, p'⟩ := v
      rw [hx] at h
      have hpos := (readAtomEx_elim hx).1
      have hp8 := (readAtomEx_elim hx).2.2.2
      cases l with
      | nil =>
        simp only [List.nil_append, List.cons.injEq] at h
        obtain ⟨rfl, h2⟩ := h
        by_cases hs : a₀.size = 0
        · by_cases hn : a₀.name = MDAT
          · exact Or.inl ⟨hs, hn⟩
          · rw [if_pos hs, if_neg hn] at h2
            refine Or.inr (Or.inr ⟨hs, hn, p', by rw [hpos]; exact hx, ?_⟩)
            refine readAtoms_nil_elim fuel s p' (by omega) h2
        · rw [if_neg hs] at h2
          refine Or.inr (Or.inl ⟨hs, ?_⟩)
          refine readAtoms_nil_elim fuel s (a₀.position + a₀.size) (by omega) h2
      | cons b l =>
        simp only [List.cons_append, List.cons.injEq] at h
        obtain ⟨rfl, h2⟩ := h
        by_cases hs : a₀.size = 0
        · rw [if_pos hs] at h2
          by_cases hn : a₀.name = MDAT
          · rw [if_pos hn] at h2
            exact absurd h2.symm (List.append_ne_nil_of_right_ne_nil l (by simp))
          · rw [if_neg hn] at h2
            exact ih s p' l a (by omega) h2
        · rw [if_neg hs] at h2
          exact ih s (a₀.position + a₀.size) l a (by omega) h2

/-- C8 (amended): the indexer records atoms in file order with the scan
seeking to `position + size` after every nonzero-size atom; every recorded
atom actually parses at its recorded position; a zero-size atom of any name
is recorded and the scan continues just past its header, except a zero-size
`mdat` atom, which is always the last record; and the scan of a whole file
ends exactly when a header read fails or a zero-size `mdat` atom was met. -/
theorem C8_indexer_scan_behaviour :
    (∀ (fuel : Nat) (s : Bytes) (pos : Nat) (a : Atom), a ∈ readAtoms fuel s pos →
      ∃ p', readAtomEx s a.position = some (a, p')) ∧
    (∀ (fuel : Nat) (s : Bytes) (pos : Nat), List.Chain' (idxStep s) (readAtoms fuel s pos)) ∧
    (∀ (fuel : Nat) (s : Bytes) (pos : Nat) (l₁ : List Atom) (a : Atom) (l₂ : List Atom),
      readAtoms fuel s pos = l₁ ++ a :: l₂ → a.size = 0 → a.name = MDAT → l₂ = []) ∧
    (∀ (s : Bytes) (l : List Atom) (a : Atom), getIndexAtoms s = l ++ [a] →
      (a.size = 0 ∧ a.name = MDAT) ∨
      (a.size ≠ 0 ∧ readAtomEx s (a.position + a.size) = none) ∨
      (a.size = 0 ∧ a.name ≠ MDAT ∧
        ∃ p', readAtomEx s a.position = some (a, p') ∧ readAtomEx s p' = none)) ∧
    (∀ s : Bytes, getIndexAtoms s = [] → readAtomEx s 0 = none) :=
  ⟨readAtoms_sound, readAtoms_chain, readAtoms_zero_mdat_last,
   fun s l a h => readAtoms_last (s.length + 1) s 0 l a (by omega) h,
   fun s h => readAtoms_nil_elim (s.length + 1) s 0 (by omega) h⟩

/-- A file starting with a zero-size `free` atom, followed by `moov` and
`mdat` atoms. -/
def zeroFreeFile : Bytes :=
  [0, 0, 0, 0] ++ FREE ++ ([0, 0, 0, 8] ++ MOOV ++ ([0, 0, 0, 8] ++ MDAT))

/-- C8 counterexample: a zero-size atom of type `free` — neither the
zero-name type nor the media-data type — is recorded and the scan then
continues and records further atoms, contradicting the claim that a
zero-size atom of a type other than the zero-name one is only tolerated
for the media-data atom. -/
theorem C8_zero_size_free_tolerated :
    getIndexAtoms zeroFreeFile = [⟨FREE, 0, 0⟩, ⟨MOOV, 8, 8⟩, ⟨MDAT, 16, 8⟩] ∧
    FREE ≠ MDAT ∧ FREE ≠ ZERO4 := by
  exact ⟨by decide, by decide, by decide⟩

/-- C8 witness: the amended scan behaviour instantiated on `zeroFreeFile`:
the zero-size `free` record parses at position 0, the scan relation holds
along the whole index, and the final `mdat` record is followed by a failing
read. -/
theorem C8_indexer_scan_behaviour_witness :
    (∃ p', readAtomEx zeroFreeFile ((⟨FREE, 0, 0⟩ : Atom).position) =
      some (⟨FREE, 0, 0⟩, p')) ∧
    List.Chain' (idxStep zeroFreeFile)
      (readAtoms (zeroFreeFile.length + 1) zeroFreeFile 0) ∧
    (((⟨MDAT, 16, 8⟩ : Atom).size = 0 ∧ (⟨MDAT, 16, 8⟩ : Atom).name = MDAT) ∨
     ((⟨MDAT, 16, 8⟩ : Atom).size ≠ 0 ∧
       readAtomEx zeroFreeFile
         ((⟨MDAT, 16, 8⟩ : Atom).position + (⟨MDAT, 16, 8⟩ : Atom).size) = none) ∨
     ((⟨MDAT, 16, 8⟩ : Atom).size = 0 ∧ (⟨MDAT, 16, 8⟩ : Atom).name ≠ MDAT ∧
       ∃ p', readAtomEx zeroFreeFile ((⟨MDAT, 16, 8⟩ : Atom).position) =
         some (⟨MDAT, 16, 8⟩, p') ∧ readAtomEx zeroFreeFile p' = none)) :=
  ⟨C8_indexer_scan_behaviour.1 (zeroFreeFile.length + 1) zeroFreeFile 0
      ⟨FREE, 0, 0⟩ (by decide),
    C8_indexer_scan_behaviour.2.1 (zeroFreeFile.length + 1) zeroFreeFile 0,
    C8_indexer_scan_behaviour.2.2.2.1 zeroFreeFile [⟨FREE, 0, 0⟩, ⟨MOOV, 8, 8⟩]
      ⟨MDAT, 16, 8⟩ (by decide)⟩

/-! ## C7: the atom tree walker -/

theorem findAtomsEx_zero_table : ∀ (fuel : Nat) (s : Bytes) (pos stop : Nat)
    (a : Atom) (p' : Nat),
    pos < stop → readAtomEx s pos = some (a, p') →
    (a.name = STCO ∨ a.name = CO64) → a.size = 0 →
    ∀ r, findAtomsEx fuel s pos stop ≠ Except.ok r := by
  intro fuel
  induction fuel with
  | zero => intro s pos stop a p' _ _ _ _ r h; cases h
  | succ fuel ih =>
    intro s pos stop a p' hlt hx ht hz r h
    have hnc : ¬(a.name = TRAK ∨ a.name = MDIA ∨ a.name = MINF ∨ a.name = STBL) := by
      rcases ht with ht | ht <;> rw [ht] <;> decide
    rw [findAtomsEx, if_pos hlt, hx] at h
    simp only at h
    rw [if_neg hnc, if_pos ht] at h
    have hpos := (readAtomEx_elim hx).1
    cases hin : findAtomsEx fuel s (a.position + a.size) stop with
    | error e => rw [hin] at h; cases h
    | ok v =>
      rw [hpos, hz, Nat.add_zero] at hin
      exact ih s pos stop a p' hlt hx ht hz v hin

theorem findAtomsEx_spec : ∀ (fuel : Nat) (s : Bytes) (pos stop : Nat)
    (ys : List (Atom × Nat)) (fin : Nat),
    findAtomsEx fuel s pos stop = Except.ok (ys, fin) →
    pos ≤ fin ∧
    (∀ y ∈ ys, (y.1.name = STCO ∨ y.1.name = CO64) ∧
      readAtomEx s y.1.position = some (y.1, y.2) ∧
      pos ≤ y.1.position ∧ y.1.position < fin) ∧
    List.Pairwise (fun x y => x.1.position < y.1.position) ys := by
  intro fuel
  induction fuel with
  | zero => intro s pos stop ys fin h; cases h
  | succ fuel ih =>
    intro s pos stop ys fin h
    rw [findAtomsEx] at h
    by_cases hlt : pos < stop
    · rw [if_pos hlt] at h
      cases hx : readAtomEx s pos with
      | none => rw [hx] at h; cases h
      | some v =>
        obtain ⟨a, p'⟩ := v
        rw [hx] at h
        simp only at h
        obtain ⟨hpos, h8, hple, hpcase⟩ := readAtomEx_elim hx
        by_cases hc : a.name = TRAK ∨ a.name = MDIA ∨ a.name = MINF ∨ a.name = STBL
        · rw [if_pos hc] at h
          cases hin : findAtomsEx fuel s p' (a.position + a.size) with
          | error e => rw [hin] at h; cases h
          | ok v1 =>
            obtain ⟨ys₁, fin₁⟩ := v1
            rw [hin] at h
            simp only at h
            cases hcont : findAtomsEx fuel s fin₁ stop with
            | error e => rw [hcont] at h; cases h
            | ok v2 =>
              obtain ⟨ys₂, fin₂⟩ := v2
              rw [hcont] at h
              simp only [Except.ok.injEq, Prod.mk.injEq] at h
              obtain ⟨rfl, rfl⟩ := h
              obtain ⟨hf1, hall1, hpw1⟩ := ih s p' (a.position + a.size) ys₁ fin₁ hin
              obtain ⟨hf2, hall2, hpw2⟩ := ih s fin₁ stop ys₂ _ hcont
              refine ⟨by omega, ?_, ?_⟩
              · intro y hy
                rcases List.mem_append.mp hy with hy | hy
                · obtain ⟨hn, hr, hge, hlt'⟩ := hall1 y hy
                  exact ⟨hn, hr, by omega, by omega⟩
                · obtain ⟨hn, hr, hge, hlt'⟩ := hall2 y hy
                  exact ⟨hn, hr, by omega, by omega⟩
              · rw [List.pairwise_append]
                refine ⟨hpw1, hpw2, ?_⟩
                intro x hx1 y hy2
                obtain ⟨-, -, -, hlt1⟩ := hall1 x hx1
                obtain ⟨-, -, hge2, -⟩ := hall2 y hy2
                omega
        · rw [if_neg hc] at h
          by_cases ht : a.name = STCO ∨ a.name = CO64
          · rw [if_pos ht] at h
            by_cases hz : a.size = 0
            · exfalso
              cases hin : findAtomsEx fuel s (a.position + a.size) stop with
              | error e => rw [hin] at h; cases h
              | ok v1 =>
                rw [hpos, hz, Nat.add_zero] at hin
                exact findAtomsEx_zero_table fuel s pos stop a p' hlt hx ht hz _ hin
            · cases hin : findAtomsEx fuel s (a.position + a.size) stop with
              | error e => rw [hin] at h; cases h
              | ok v1 =>
                obtain ⟨ys₁, fin₁⟩ := v1
                rw [hin] at h
                simp only [Except.ok.injEq, Prod.mk.injEq] at h
                obtain ⟨rfl, rfl⟩ := h
                obtain ⟨hf1, hall1, hpw1⟩ := ih s (a.position + a.size) stop ys₁ _ hin
                refine ⟨by omega, ?_, ?_⟩
                · intro y hy
                  rcases List.mem_cons.mp hy with rfl | hy
                  · exact ⟨ht, by rw [hpos]; exact hx, by simp [hpos], by simp [hpos]; omega⟩
                  · obtain ⟨hn, hr, hge, hlt'⟩ := hall1 y hy
                    exact ⟨hn, hr, by omega, hlt'⟩
                · rw [List.pairwise_cons]
                  refine ⟨?_, hpw1⟩
                  intro y hy
                  obtain ⟨-, -, hge, -⟩ := hall1 y hy
                  simp only [hpos]
                  omega
          · rw [if_neg ht] at h
            cases hin : findAtomsEx fuel s (a.position + a.size) stop with
            | error e => rw [hin] at h; cases h
            | ok v1 =>
              obtain ⟨ys₁, fin₁⟩ := v1
              rw [hin] at h
              simp only [Except.ok.injEq, Prod.mk.injEq] at h
              obtain ⟨rfl, rfl⟩ := h
              obtain ⟨hf1, hall1, hpw1⟩ := ih s (a.position + a.size) stop ys₁ _ hin
              refine ⟨by omega, ?_, hpw1⟩
              intro y hy
              obtain ⟨hn, hr, hge, hlt'⟩ := hall1 y hy
              exact ⟨hn, hr, by omega, hlt'⟩
    · rw [if_neg hlt] at h
      simp only [Except.ok.injEq, Prod.mk.injEq] at h
      obtain ⟨rfl, rfl⟩ := h
      exact ⟨le_refl _, by simp, by simp⟩

/-- C7: on a successful walk of a container's byte range, every yielded
value is a chunk-offset-table atom (`stco`/`co64`) paired with the stream
position just past the header read at its recorded position, the yields
appear in strictly increasing positional (depth-first, left-to-right)
order; and a header read that fails before the declared end of the range
makes the walk raise the malformed-file error. -/
theorem C7_tree_walker :
    (∀ (fuel : Nat) (s : Bytes) (pos stop : Nat) (ys : List (Atom × Nat)) (fin : Nat),
      findAtomsEx fuel s pos stop = Except.ok (ys, fin) →
      pos ≤ fin ∧
      (∀ y ∈ ys, (y.1.name = STCO ∨ y.1.name = CO64) ∧
        readAtomEx s y.1.position = some (y.1, y.2) ∧
        pos ≤ y.1.position ∧ y.1.position < fin) ∧
      List.Pairwise (fun x y => x.1.position < y.1.position) ys) ∧
    (∀ (fuel : Nat) (s : Bytes) (pos stop : Nat), pos < stop → readAtomEx s pos = none →
      findAtomsEx (fuel + 1) s pos stop = Except.error findErrMsg) := by
  constructor
  · exact findAtomsEx_spec
  · intro fuel s pos stop hlt hnone
    rw [findAtomsEx, if_pos hlt, hnone]

/-- A stream consisting of a `moov` atom that nests
`trak / stbl / stco(1 entry)` and then holds a `co64(1 entry)` directly. -/
def walkFile : Bytes :=
  [0, 0, 0, 68] ++ MOOV ++
  ([0, 0, 0, 36] ++ TRAK ++
    ([0, 0, 0, 28] ++ STBL ++
      ([0, 0, 0, 20] ++ STCO ++ [0, 0, 0, 0] ++ [0, 0, 0, 1] ++ [0, 0, 0, 99]))) ++
  ([0, 0, 0, 24] ++ CO64 ++ [0, 0, 0, 0] ++ [0, 0, 0, 1] ++ [0, 0, 0, 0, 0, 0, 0, 77])

/-- C7 witness: walking the `moov` range of `walkFile` yields the deeply
nested `stco` and then the shallow `co64`, in file order, each positioned
just past its 8-byte header. -/
theorem C7_tree_walker_witness :
    (8 : Nat) ≤ 68 ∧
    (∀ y ∈ [((⟨STCO, 24, 20⟩ : Atom), 32), ((⟨CO64, 44, 24⟩ : Atom), 52)],
      (y.1.name = STCO ∨ y.1.name = CO64) ∧
      readAtomEx walkFile y.1.position = some (y.1, y.2) ∧
      8 ≤ y.1.position ∧ y.1.position < 68) ∧
    List.Pairwise (fun x y => x.1.position < y.1.position)
      [((⟨STCO, 24, 20⟩ : Atom), 32), ((⟨CO64, 44, 24⟩ : Atom), 52)] :=
  C7_tree_walker.1 200 walkFile 8 68 _ 68 (by decide)

/-! ## Frame properties of the patching walk -/

theorem take_prefix_trans {x y : Bytes} {m k : Nat}
    (h : x.take m = y.take m) (hk : k ≤ m) : x.take k = y.take k := by
  have hx : x.take k = (x.take m).take k := by
    rw [List.take_take, Nat.min_eq_left hk]
  rw [hx, h, List.take_take, Nat.min_eq_left hk]

/-- A successful `patchEntries` preserves the buffer length and the prefix
before the entry run. -/
theorem patchEntries_basic {buf : Bytes} {ep w cnt : Nat} {offset : Int} {buf₁ : Bytes}
    (hep : ep ≤ buf.length)
    (h : patchEntries buf ep w cnt offset = Except.ok buf₁) :
    buf₁.length = buf.length ∧ buf₁.take ep = buf.take ep := by
  unfold patchEntries at h
  cases hrd : readBytes buf ep (w * cnt) with
  | none => rw [hrd] at h; cases h
  | some eb =>
    rw [hrd] at h
    simp only at h
    split at h
    · have hb := (Except.ok.inj h).symm
      have hn := (readBytes_some_elim hrd).2.2
      have hdlen : ((((beChunks w cnt eb).map (fun (e : Nat) => (e : Int) + offset)).map
          (fun v => bePack w v.toNat)).flatten).length = w * cnt := by
        rw [packList_length, List.length_map, beChunks_length]
      constructor
      · rw [hb, writeBytes_length _ (by omega)]
      · rw [hb, writeBytes_take _ hep]
    · cases h

/-- A successful patching walk preserves the buffer length and every byte
before its start position, and only moves the stream forward. -/
theorem patchWalk_frame : ∀ (fuel : Nat) (buf : Bytes) (pos stop : Nat) (offset : Int)
    (buf' : Bytes) (fin : Nat),
    patchWalk fuel buf pos stop offset = Except.ok (buf', fin) →
    buf'.length = buf.length ∧ buf'.take pos = buf.take pos ∧ pos ≤ fin := by
  intro fuel
  induction fuel with
  | zero => intro buf pos stop offset buf' fin h; cases h
  | succ fuel ih =>
    intro buf pos stop offset buf' fin h
    rw [patchWalk] at h
    by_cases hlt : pos < stop
    · rw [if_pos hlt] at h
      cases hx : readAtomEx buf pos with
      | none => rw [hx] at h; cases h
      | some v =>
        obtain ⟨a, p'⟩ := v
        rw [hx] at h
        simp only at h
        obtain ⟨hpos, h8, hple, hpcase⟩ := readAtomEx_elim hx
        by_cases hc : a.name = TRAK ∨ a.name = MDIA ∨ a.name = MINF ∨ a.name = STBL
        · rw [if_pos hc] at h
          cases hin : patchWalk fuel buf p' (a.position + a.size) offset with
          | error e => rw [hin] at h; cases h
          | ok v1 =>
            obtain ⟨buf₁, fin₁⟩ := v1
            rw [hin] at h
            simp only at h
            obtain ⟨hl1, ht1, hf1⟩ := ih buf p' _ offset buf₁ fin₁ hin
            obtain ⟨hl2, ht2, hf2⟩ := ih buf₁ fin₁ stop offset buf' fin h
            refine ⟨by omega, ?_, by omega⟩
            have e1 : buf'.take pos = buf₁.take pos :=
              take_prefix_trans ht2 (by omega)
            have e2 : buf₁.take pos = buf.take pos :=
              take_prefix_trans ht1 (by omega)
            rw [e1, e2]
        · rw [if_neg hc] at h
          by_cases htb : a.name = STCO ∨ a.name = CO64
          · rw [if_pos htb] at h
            cases hhb : readBytes buf p' 8 with
            | none => rw [hhb] at h; cases h
            | some hb =>
              rw [hhb] at h
              simp only at h
              cases hpe : patchEntries buf (p' + 8)
                  (if a.name = STCO then 4 else 8) (beVal (hb.drop 4)) offset with
              | error e => rw [hpe] at h; cases h
              | ok buf₁ =>
                rw [hpe] at h
                simp only at h
                have hple8 : p' + 8 ≤ buf.length := readBytes_some_bound hhb (by omega)
                obtain ⟨hl1, ht1⟩ := patchEntries_basic (by omega) hpe
                obtain ⟨hl2, ht2, hf2⟩ := ih buf₁ _ stop offset buf' fin h
                refine ⟨by omega, ?_, by omega⟩
                have e1 : buf'.take pos = buf₁.take pos :=
                  take_prefix_trans ht2 (by omega)
                have e2 : buf₁.take pos = buf.take pos :=
                  take_prefix_trans ht1 (by omega)
                rw [e1, e2]
          · rw [if_neg htb] at h
            obtain ⟨hl1, ht1, hf1⟩ := ih buf (a.position + a.size) stop offset buf' fin h
            refine ⟨hl1, ?_, by omega⟩
            exact take_prefix_trans ht1 (by omega)
    · rw [if_neg hlt] at h
      simp only [Except.ok.injEq, Prod.mk.injEq] at h
      obtain ⟨rfl, rfl⟩ := h
      exact ⟨rfl, rfl, le_refl _⟩

/-- A walk that yields no chunk-offset tables patches nothing: the buffer
comes back unchanged, with the same final position. -/
theorem patchWalk_no_tables : ∀ (fuel : Nat) (s : Bytes) (pos stop : Nat)
    (offset : Int) (fin : Nat),
    findAtomsEx fuel s pos stop = Except.ok ([], fin) →
    patchWalk fuel s pos stop offset = Except.ok (s, fin) := by
  intro fuel
  induction fuel with
  | zero => intro s pos stop offset fin h; cases h
  | succ fuel ih =>
    intro s pos stop offset fin h
    rw [findAtomsEx] at h
    rw [patchWalk]
    by_cases hlt : pos < stop
    · rw [if_pos hlt] at h ⊢
      cases hx : readAtomEx s pos with
      | none => rw [hx] at h; cases h
      | some v =>
        obtain ⟨a, p'⟩ := v
        rw [hx] at h
        simp only at h ⊢
        by_cases hc : a.name = TRAK ∨ a.name = MDIA ∨ a.name = MINF ∨ a.name = STBL
        · rw [if_pos hc] at h ⊢
          cases hin : findAtomsEx fuel s p' (a.position + a.size) with
          | error e => rw [hin] at h; cases h
          | ok v1 =>
            obtain ⟨ys₁, fin₁⟩ := v1
            rw [hin] at h
            simp only at h
            cases hcont : findAtomsEx fuel s fin₁ stop with
            | error e => rw [hcont] at h; cases h
            | ok v2 =>
              obtain ⟨ys₂, fin₂⟩ := v2
              rw [hcont] at h
              simp only [Except.ok.injEq, Prod.mk.injEq, List.append_eq_nil] at h
              obtain ⟨⟨rfl, rfl⟩, rfl⟩ := h
              rw [ih s p' (a.position + a.size) offset fin₁ hin]
              simp only
              exact ih s fin₁ stop offset _ hcont
        · rw [if_neg hc] at h ⊢
          by_cases htb : a.name = STCO ∨ a.name = CO64
          · rw [if_pos htb] at h
            cases hin : findAtomsEx fuel s (a.position + a.size) stop with
            | error e => rw [hin] at h; cases h
            | ok v1 =>
              obtain ⟨ys₁, fin₁⟩ := v1
              rw [hin] at h
              simp only [Except.ok.injEq, Prod.mk.injEq] at h
              exact absurd h.1.symm (by simp)
          · rw [if_neg htb] at h ⊢
            cases hin : findAtomsEx fuel s (a.position + a.size) stop with
            | error e => rw [hin] at h; cases h
            | ok v1 =>
              obtain ⟨ys₁, fin₁⟩ := v1
              rw [hin] at h
              simp only [Except.ok.injEq, Prod.mk.injEq] at h
              obtain ⟨rfl, rfl⟩ := h
              exact ih s (a.position + a.size) stop offset _ hin
    · rw [if_neg hlt] at h ⊢
      simp only [Except.ok.injEq, Prod.mk.injEq] at h
      obtain ⟨-, rfl⟩ := h
      rfl

/-! ## Destructuring a successful run of `process` -/

/-- A successful `process` run passes validation, planning, the compression
gate and the patcher, and its output is the written parts in order. -/
theorem process_ok_elim {s : Bytes} {limit : Option Nat} {toEnd cleanup : Bool}
    {out : Bytes} (h : process s limit toEnd cleanup = Except.ok out) :
    ∃ offset mv mbuf,
      ensureValidIndex (getIndexAtoms s) = Except.ok () ∧
      planOffset (getIndexAtoms s) toEnd cleanup = some (offset, mv) ∧
      offset ≠ 0 ∧
      moovIsCompressed s mv = Except.ok false ∧
      patchMoov s mv offset = Except.ok mbuf ∧
      out = ((((getIndexAtoms s).filter (fun a => decide (a.name = FTYP))).map
          (fun a => readUpTo s a.position a.size)).flatten ++
        (if toEnd then [] else mbuf) ++
        (((getIndexAtoms s).filter (fun a => decide (a.name ∉ skipTypes cleanup))).map
          (fun a => copyAtomBytes s a limit)).flatten ++
        (if toEnd then mbuf else [])) := by
  simp only [process] at h
  cases hv : ensureValidIndex (getIndexAtoms s) with
  | error e => rw [hv] at h; cases h
  | ok u =>
    cases u
    rw [hv] at h
    simp only at h
    cases hp : planOffset (getIndexAtoms s) toEnd cleanup with
    | none => rw [hp] at h; cases h
    | some v =>
      obtain ⟨offset, mv⟩ := v
      rw [hp] at h
      simp only at h
      by_cases hoff : offset = 0
      · rw [if_pos hoff] at h; cases h
      · rw [if_neg hoff] at h
        cases hcomp : moovIsCompressed s mv with
        | error e => rw [hcomp] at h; cases h
        | ok b =>
          cases b with
          | true => rw [hcomp] at h; cases h
          | false =>
            rw [hcomp] at h
            simp only at h
            cases hpm : patchMoov s mv offset with
            | error e => rw [hpm] at h; cases h
            | ok mbuf =>
              rw [hpm] at h
              simp only [Except.ok.injEq] at h
              exact ⟨offset, mv, mbuf, rfl, rfl, hoff, hcomp, hpm, h.symm⟩

/-! ## C6: the stream writer's output layout -/

/-- C6: when the metadata atom holds no chunk-offset tables, a successful
`process` run emits, in order, every `ftyp` atom byte-for-byte, the moov
bytes unchanged (before the rest for the metadata-first layout), every
remaining top-level atom except `ftyp`, `moov` and (with cleanup) `free` —
each one exactly the input byte slice at its recorded position — and the
moov bytes last for the metadata-last layout. -/
theorem C6_stream_writer (s : Bytes) (toEnd cleanup : Bool) (offset : Int)
    (mv root : Atom) (p0 fin : Nat) (out : Bytes)
    (hplan : planOffset (getIndexAtoms s) toEnd cleanup = some (offset, mv))
    (hroot : readAtomEx (readUpTo s mv.position mv.size) 0 = some (root, p0))
    (hnotab : findAtomsEx (2 * (readUpTo s mv.position mv.size).length + 2)
      (readUpTo s mv.position mv.size) p0 (root.position + root.size) =
      Except.ok ([], fin))
    (hrun : process s none toEnd cleanup = Except.ok out) :
    out = ((((getIndexAtoms s).filter (fun a => decide (a.name = FTYP))).map
        (fun a => readUpTo s a.position a.size)).flatten ++
      (if toEnd then [] else readUpTo s mv.position mv.size) ++
      (((getIndexAtoms s).filter (fun a => decide (a.name ∉ skipTypes cleanup))).map
        (fun a => readUpTo s a.position a.size)).flatten ++
      (if toEnd then readUpTo s mv.position mv.size else [])) := by
  obtain ⟨offset', mv', mbuf, hv, hplan', hoff, hcomp, hpm, hout⟩ := process_ok_elim hrun
  rw [hplan] at hplan'
  simp only [Option.some.injEq, Prod.mk.injEq] at hplan'
  obtain ⟨rfl, rfl⟩ := hplan'
  have hid : patchMoov s mv offset = Except.ok (readUpTo s mv.position mv.size) := by
    simp only [patchMoov]
    rw [hroot]
    simp only
    rw [patchWalk_no_tables _ _ _ _ offset _ hnotab]
    rfl
  rw [hid] at hpm
  have hmbuf : mbuf = readUpTo s mv.position mv.size := (Except.ok.inj hpm).symm
  subst hmbuf
  rw [hout]
  have hcopy : ((getIndexAtoms s).filter (fun a => decide (a.name ∉ skipTypes cleanup))).map
      (fun a => copyAtomBytes s a none) =
    ((getIndexAtoms s).filter (fun a => decide (a.name ∉ skipTypes cleanup))).map
      (fun a => readUpTo s a.position a.size) := by
    apply List.map_congr_left
    intro a ha
    rw [copyAtomBytes_eq]
    rfl
  rw [hcopy]

/-- The input file of the C6 witness: `ftyp`, then `mdat`, then an empty
`moov` last. -/
def c6File : Bytes :=
  [0, 0, 0, 8] ++ FTYP ++ ([0, 0, 0, 8] ++ MDAT ++ ([0, 0, 0, 8] ++ MOOV))

/-- C6 witness: processing `c6File` (moov last, no chunk-offset tables)
yields exactly `ftyp`, the untouched moov bytes, then `mdat`, each the
corresponding input slice. -/
theorem C6_stream_writer_witness :
    ([0, 0, 0, 8] ++ FTYP ++ ([0, 0, 0, 8] ++ MOOV) ++ ([0, 0, 0, 8] ++ MDAT) : Bytes) =
      ((((getIndexAtoms c6File).filter (fun a => decide (a.name = FTYP))).map
          (fun a => readUpTo c6File a.position a.size)).flatten ++
        readUpTo c6File 16 8 ++
        (((getIndexAtoms c6File).filter (fun a => decide (a.name ∉ skipTypes true))).map
          (fun a => readUpTo c6File a.position a.size)).flatten ++
        ([] : Bytes)) :=
  C6_stream_writer c6File false true 8 ⟨MOOV, 16, 8⟩ ⟨MOOV, 0, 8⟩ 8 8 _
    (by decide) (by decide) (by decide) (by decide)

/-! ## The planner on an index with no reclaimable atoms -/

/-- The position of the last `mdat` atom of `idx`, starting from `d`. -/
def lastMdatPos (idx : List Atom) (d : Nat) : Nat :=
  idx.foldl (fun p a => if a.name = MDAT then a.position else p) d

/-- The last `moov` atom of `idx`, starting from `m`. -/
def lastMoov (idx : List Atom) (m : Option Atom) : Option Atom :=
  idx.foldl (fun m a => if a.name = MOOV then some a else m) m

theorem lastMdatPos_cons (a : Atom) (l : List Atom) (d : Nat) :
    lastMdatPos (a :: l) d = lastMdatPos l (if a.name = MDAT then a.position else d) := rfl

theorem lastMoov_cons (a : Atom) (l : List Atom) (m : Option Atom) :
    lastMoov (a :: l) m = lastMoov l (if a.name = MOOV then some a else m) := rfl

theorem lastMdatPos_append (A B : List Atom) (d : Nat) :
    lastMdatPos (A ++ B) d = lastMdatPos B (lastMdatPos A d) :=
  List.foldl_append ..

theorem lastMoov_append (A B : List Atom) (m : Option Atom) :
    lastMoov (A ++ B) m = lastMoov B (lastMoov A m) :=
  List.foldl_append ..

theorem lastMdatPos_no : ∀ (idx : List Atom) (d : Nat),
    (∀ a ∈ idx, a.name ≠ MDAT) → lastMdatPos idx d = d := by
  intro idx
  induction idx with
  | nil => intro d _; rfl
  | cons a idx ih =>
    intro d h
    rw [lastMdatPos_cons, if_neg (h a (by simp))]
    exact ih d (fun x hx => h x (by simp [hx]))

theorem lastMoov_no : ∀ (idx : List Atom) (m : Option Atom),
    (∀ a ∈ idx, a.name ≠ MOOV) → lastMoov idx m = m := by
  intro idx
  induction idx with
  | nil => intro m _; rfl
  | cons a idx ih =>
    intro m h
    rw [lastMoov_cons, if_neg (h a (by simp))]
    exact ih m (fun x hx => h x (by simp [hx]))

theorem lastMdatPos_mem : ∀ (idx : List Atom) (d : Nat),
    (∃ a ∈ idx, a.name = MDAT) →
    ∃ a ∈ idx, a.name = MDAT ∧ lastMdatPos idx d = a.position := by
  intro idx
  induction idx with
  | nil => intro d h; simp at h
  | cons b idx ih =>
    intro d h
    by_cases hex : ∃ a ∈ idx, a.name = MDAT
    · obtain ⟨a, ha, hn, he⟩ := ih (if b.name = MDAT then b.position else d) hex
      exact ⟨a, by simp [ha], hn, by rw [lastMdatPos_cons]; exact he⟩
    · have hb : b.name = MDAT := by
        obtain ⟨a, ha, hn⟩ := h
        rcases List.mem_cons.mp ha with rfl | ha'
        · exact hn
        · exact absurd ⟨a, ha', hn⟩ hex
      refine ⟨b, by simp, hb, ?_⟩
      rw [lastMdatPos_cons, if_pos hb]
      exact lastMdatPos_no idx b.position (fun x hx hn => hex ⟨x, hx, hn⟩)

theorem planStep_moov (c : Bool) (st : PlanState) (a : Atom) :
    (planStep c st a).moov = if a.name = MOOV then some a else st.moov := by
  unfold planStep
  by_cases h2 : a.name = MOOV
  · rw [if_pos h2, if_pos h2]
  · rw [if_neg h2, if_neg h2]
    split
    · rfl
    · split
      · rfl
      · split
        · rfl
        · rfl

theorem planStep_mdatPos (c : Bool) (st : PlanState) (a : Atom) :
    (planStep c st a).mdatPos = if a.name = MDAT then a.position else st.mdatPos := by
  unfold planStep
  by_cases h2 : a.name = MOOV
  · have h3 : a.name ≠ MDAT := by rw [h2]; decide
    rw [if_pos h2, if_neg h3]
  · rw [if_neg h2]
    by_cases h3 : a.name = MDAT
    · rw [if_pos h3, if_pos h3]
    · rw [if_neg h3, if_neg h3]
      split
      · rfl
      · split
        · rfl
        · rfl

theorem planStep_freeSize (c : Bool) (st : PlanState) (a : Atom)
    (hf : a.name ≠ FREE) (hz : a.name ≠ ZERO4) :
    (planStep c st a).freeSize = st.freeSize := by
  unfold planStep
  split
  · rfl
  · split
    · rfl
    · rw [if_neg (fun hc => hf hc.1), if_neg (fun hc => hz hc.1)]

theorem planScan_state : ∀ (idx : List Atom) (c : Bool) (st : PlanState),
    (∀ a ∈ idx, a.name ≠ FREE ∧ a.name ≠ ZERO4) →
    idx.foldl (planStep c) st =
      ⟨lastMdatPos idx st.mdatPos, st.freeSize, lastMoov idx st.moov⟩ := by
  intro idx
  induction idx with
  | nil => intro c st _; rfl
  | cons a idx ih =>
    intro c st h
    rw [List.foldl_cons, ih c _ (fun x hx => h x (by simp [hx]))]
    rw [lastMdatPos_cons, lastMoov_cons, planStep_mdatPos, planStep_moov,
      planStep_freeSize c st a (h a (by simp)).1 (h a (by simp)).2]

theorem planScan_moov_aux : ∀ (idx : List Atom) (c : Bool) (st : PlanState) (m : Atom),
    (idx.foldl (planStep c) st).moov = some m →
    st.moov = some m ∨ (m ∈ idx ∧ m.name = MOOV) := by
  intro idx
  induction idx with
  | nil => intro c st m h; exact Or.inl h
  | cons a idx ih =>
    intro c st m h
    rw [List.foldl_cons] at h
    rcases ih c (planStep c st a) m h with h1 | h1
    · rw [planStep_moov] at h1
      by_cases h2 : a.name = MOOV
      · rw [if_pos h2] at h1
        have := Option.some.inj h1
        exact Or.inr ⟨by rw [← this]; simp, by rw [← this]; exact h2⟩
      · rw [if_neg h2] at h1
        exact Or.inl h1
    · exact Or.inr ⟨by simp [h1.1], h1.2⟩

theorem planOffset_moov {idx : List Atom} {toEnd cleanup : Bool} {offset : Int} {m : Atom}
    (h : planOffset idx toEnd cleanup = some (offset, m)) : m ∈ idx ∧ m.name = MOOV := by
  unfold planOffset at h
  simp only at h
  cases hsc : (planScan cleanup idx).moov with
  | none => rw [hsc] at h; cases h
  | some m₀ =>
    rw [hsc] at h
    simp only at h
    have hm : m₀ = m := by
      split at h <;>
        · simp only [Option.some.injEq, Prod.mk.injEq] at h
          exact h.2
    subst hm
    rcases planScan_moov_aux idx cleanup ⟨999999, 0, none⟩ m₀ hsc with h1 | h1
    · cases h1
    · exact h1

/-- The planner on an index `Rf ++ m :: Rr` with `ftyp` atoms first, one
`moov` atom `m`, no reclaimable atoms, and an `mdat` atom after the moov:
the computed offset for the metadata-first layout is `0`. -/
theorem planOffset_first (Rf Rr : List Atom) (m : Atom)
    (hm : m.name = MOOV)
    (hRf : ∀ x ∈ Rf, x.name = FTYP)
    (hRr : ∀ x ∈ Rr, x.name ≠ MOOV ∧ x.name ≠ FREE ∧ x.name ≠ ZERO4)
    (hmd : ∃ x ∈ Rr, x.name = MDAT)
    (hpos : ∀ x ∈ Rr, m.position < x.position) :
    planOffset (Rf ++ m :: Rr) false true = some (0, m) := by
  have hclean : ∀ x ∈ Rf ++ m :: Rr, x.name ≠ FREE ∧ x.name ≠ ZERO4 := by
    intro x hx
    rcases List.mem_append.mp hx with hx | hx
    · rw [hRf x hx]; exact ⟨by decide, by decide⟩
    · rcases List.mem_cons.mp hx with rfl | hx
      · rw [hm]; exact ⟨by decide, by decide⟩
      · exact ⟨(hRr x hx).2.1, (hRr x hx).2.2⟩
  unfold planOffset planScan
  rw [planScan_state _ true _ hclean]
  simp only
  have hlm : lastMoov (Rf ++ m :: Rr) none = some m := by
    rw [lastMoov_append, lastMoov_no Rf none (fun x hx => by rw [hRf x hx]; decide),
      lastMoov_cons, if_pos hm]
    exact lastMoov_no Rr _ (fun x hx => (hRr x hx).1)
  obtain ⟨x₀, hx₀, hx₀n, hx₀e⟩ :
      ∃ x ∈ Rr, x.name = MDAT ∧ lastMdatPos (Rf ++ m :: Rr) 999999 = x.position := by
    rw [lastMdatPos_append, lastMdatPos_no Rf _ (fun x hx => by rw [hRf x hx]; decide),
      lastMdatPos_cons, if_neg (by rw [hm]; decide)]
    exact lastMdatPos_mem Rr _ hmd
  rw [hlm]
  simp only
  rw [hx₀e, if_pos (hpos x₀ hx₀)]
  simp

/-- The planner on an index `Rf ++ Rr ++ [m]` with `ftyp` atoms first, the
one `moov` atom `m` last, no reclaimable atoms, and an `mdat` atom before
the moov: the computed offset for the metadata-last layout is `0`. -/
theorem planOffset_last (Rf Rr : List Atom) (m : Atom)
    (hm : m.name = MOOV)
    (hRf : ∀ x ∈ Rf, x.name = FTYP)
    (hRr : ∀ x ∈ Rr, x.name ≠ MOOV ∧ x.name ≠ FREE ∧ x.name ≠ ZERO4)
    (hmd : ∃ x ∈ Rr, x.name = MDAT)
    (hpos : ∀ x ∈ Rr, x.position < m.position) :
    planOffset (Rf ++ Rr ++ [m]) true true = some (0, m) := by
  have hclean : ∀ x ∈ Rf ++ Rr ++ [m], x.name ≠ FREE ∧ x.name ≠ ZERO4 := by
    intro x hx
    rcases List.mem_append.mp hx with hx | hx
    · rcases List.mem_append.mp hx with hx | hx
      · rw [hRf x hx]; exact ⟨by decide, by decide⟩
      · exact ⟨(hRr x hx).2.1, (hRr x hx).2.2⟩
    · rcases List.mem_singleton.mp hx with rfl
      rw [hm]; exact ⟨by decide, by decide⟩
  unfold planOffset planScan
  rw [planScan_state _ true _ hclean]
  simp only
  have hlm : lastMoov (Rf ++ Rr ++ [m]) none = some m := by
    rw [lastMoov_append, lastMoov_cons, if_pos hm]
    rfl
  obtain ⟨x₀, hx₀, hx₀n, hx₀e⟩ :
      ∃ x ∈ Rr, x.name = MDAT ∧ lastMdatPos (Rf ++ Rr ++ [m]) 999999 = x.position := by
    rw [lastMdatPos_append, lastMdatPos_cons, if_neg (by rw [hm]; decide)]
    have : lastMdatPos (Rf ++ Rr) 999999 = lastMdatPos Rr (lastMdatPos Rf 999999) :=
      lastMdatPos_append Rf Rr 999999
    rw [this, lastMdatPos_no Rf _ (fun x hx => by rw [hRf x hx]; decide)]
    obtain ⟨x, hx, hn, he⟩ := lastMdatPos_mem Rr 999999 hmd
    exact ⟨x, hx, hn, by rw [← he]; rfl⟩
  rw [hlm]
  simp only
  rw [hx₀e, if_neg (by have := hpos x₀ hx₀; omega)]
  simp

/-! ## Parsing a concatenation of self-delimiting atom blocks -/

/-- The atom records the indexer produces for a sequence of byte blocks laid
out contiguously from `base`: each block contributes its atom's name and
size at the running position. -/
def reposition : Nat → List (Atom × Bytes) → List Atom
  | _, [] => []
  | base, p :: t => ⟨p.1.name, base, p.1.size⟩ :: reposition (base + p.2.length) t

theorem reposition_append : ∀ (A B : List (Atom × Bytes)) (base : Nat),
    reposition base (A ++ B) =
      reposition base A ++ reposition (base + ((A.map Prod.snd).flatten).length) B := by
  intro A
  induction A with
  | nil => intro B base; simp [reposition]
  | cons p A ih =>
    intro B base
    have hc : (p :: A) ++ B = p :: (A ++ B) := rfl
    rw [hc, reposition, reposition, ih, List.cons_append]
    simp only [List.map_cons, List.flatten_cons, List.length_append]
    rw [Nat.add_assoc]

theorem reposition_mem_elim : ∀ (L : List (Atom × Bytes)) (base : Nat) (x : Atom),
    x ∈ reposition base L →
    (∃ p ∈ L, x.name = p.1.name ∧ x.size = p.1.size) ∧ base ≤ x.position := by
  intro L
  induction L with
  | nil => intro base x hx; simp [reposition] at hx
  | cons p L ih =>
    intro base x hx
    rw [reposition] at hx
    rcases List.mem_cons.mp hx with rfl | hx
    · exact ⟨⟨p, by simp, rfl, rfl⟩, le_refl _⟩
    · obtain ⟨⟨q, hq, hn, hs⟩, hb⟩ := ih (base + p.2.length) x hx
      exact ⟨⟨q, by simp [hq], hn, hs⟩, by omega⟩

theorem reposition_mem_upper : ∀ (L : List (Atom × Bytes)) (base : Nat) (x : Atom),
    (∀ p ∈ L, p.2.length ≠ 0) → x ∈ reposition base L →
    x.position < base + ((L.map Prod.snd).flatten).length := by
  intro L
  induction L with
  | nil => intro base x _ hx; simp [reposition] at hx
  | cons p L ih =>
    intro base x hnz hx
    rw [reposition] at hx
    have hp : p.2.length ≠ 0 := hnz p (by simp)
    simp only [List.map_cons, List.flatten_cons, List.length_append]
    rcases List.mem_cons.mp hx with rfl | hx
    · simp only
      omega
    · have := ih (base + p.2.length) x (fun q hq => hnz q (by simp [hq])) hx
      omega

theorem reposition_mem_of : ∀ (L : List (Atom × Bytes)) (base : Nat) (p : Atom × Bytes),
    p ∈ L → ∃ x ∈ reposition base L,
      x.name = p.1.name ∧ x.size = p.1.size ∧ base ≤ x.position := by
  intro L
  induction L with
  | nil => intro base p hp; simp at hp
  | cons q L ih =>
    intro base p hp
    rcases List.mem_cons.mp hp with rfl | hp
    · exact ⟨⟨p.1.name, base, p.1.size⟩, by rw [reposition]; simp, rfl, rfl, le_refl _⟩
    · obtain ⟨x, hx, hn, hs, hb⟩ := ih (base + q.2.length) p hp
      exact ⟨x, by rw [reposition]; simp [hx], hn, hs, by omega⟩

theorem blocks_len_le : ∀ (L : List (Atom × Bytes)),
    (∀ p ∈ L, p.2.length ≠ 0) → L.length ≤ ((L.map Prod.snd).flatten).length := by
  intro L
  induction L with
  | nil => intro _; simp
  | cons p L ih =>
    intro h
    have hp : p.2.length ≠ 0 := h p (by simp)
    have := ih (fun q hq => h q (by simp [hq]))
    simp only [List.map_cons, List.flatten_cons, List.length_append, List.length_cons]
    omega

/-- Re-indexing a contiguous layout of self-delimiting blocks after a
prefix `X`: the indexer records exactly one atom per block, at the running
byte positions. -/
theorem parseConcat : ∀ (L : List (Atom × Bytes)) (X : Bytes) (fuel : Nat),
    (∀ p ∈ L, ∃ p', readAtomEx p.2 0 = some (⟨p.1.name, 0, p.1.size⟩, p') ∧
      p.2.length = p.1.size ∧ p.1.size ≠ 0) →
    L.length < fuel →
    readAtoms fuel (X ++ (L.map Prod.snd).flatten) X.length = reposition X.length L := by
  intro L
  induction L with
  | nil =>
    intro X fuel _ hfuel
    obtain ⟨f, rfl⟩ : ∃ f, fuel = f + 1 := ⟨fuel - 1, by omega⟩
    simp only [List.map_nil, List.flatten_nil, List.append_nil, reposition]
    rw [readAtoms, readAtomEx_none_of_short (by omega)]
  | cons p t ih =>
    intro X fuel hblocks hfuel
    obtain ⟨f, rfl⟩ : ∃ f, fuel = f + 1 := ⟨fuel - 1, by omega⟩
    obtain ⟨p', hread, hlen, hnz⟩ := hblocks p (by simp)
    simp only [List.map_cons, List.flatten_cons]
    have h1 : readAtomEx (p.2 ++ (t.map Prod.snd).flatten) 0 =
        some (⟨p.1.name, 0, p.1.size⟩, p') := readAtomEx_append_left hread
    have h2 := @readAtomEx_append_right X _ _ _ h1
    rw [← List.append_assoc] at h2 ⊢
    rw [readAtoms, h2]
    simp only
    rw [if_neg hnz]
    have h3 : X.length + p.1.size = (X ++ p.2).length := by
      simp [hlen]
    rw [h3, ih (X ++ p.2) f (fun q hq => hblocks q (by simp [hq]))
      (by simp only [List.length_cons] at hfuel; omega)]
    rw [reposition]
    simp [hlen]

/-! ## C9: idempotence of `process` -/

theorem exceptMap_ok {ε α β : Type} {f : α → β} {e : Except ε α} {b : β}
    (h : Except.map f e = Except.ok b) : ∃ a, e = Except.ok a ∧ f a = b := by
  cases e with
  | error x => simp [Except.map] at h
  | ok a =>
    simp only [Except.map, Except.ok.injEq] at h
    exact ⟨a, rfl, h⟩

theorem process_zero_offset {s : Bytes} {limit : Option Nat} {toEnd cleanup : Bool}
    {m : Atom}
    (hvalid : ensureValidIndex (getIndexAtoms s) = Except.ok ())
    (hplan : planOffset (getIndexAtoms s) toEnd cleanup = some (0, m)) :
    process s limit toEnd cleanup = Except.error (QtError.fastStartSetup setupMsg) := by
  simp only [process, hvalid, hplan]
  simp

/-- C9 (amended): re-running `process` on its own output, with the same
target layout, cleanup enabled and the default unlimited per-atom write
limit, fails with the no-processing-needed condition — provided every
top-level atom of the input lies inside the file with its header inside
its extent (ruling out zero-size/truncated atoms such as a zero-size
`mdat`, which the writer silently drops) and no top-level atom carries the
four-NUL zero name (which the planner would count again on the re-run). -/
theorem C9_idempotence (s : Bytes) (toEnd : Bool) (out : Bytes)
    (hrun : process s none toEnd true = Except.ok out)
    (hwf : ∀ a ∈ getIndexAtoms s, a.position + a.size ≤ s.length ∧
      headerEndOf s a ≤ a.position + a.size)
    (hz : ∀ a ∈ getIndexAtoms s, a.name ≠ ZERO4) :
    process out none toEnd true = Except.error (QtError.fastStartSetup setupMsg) := by
  obtain ⟨offset, mv, mbuf, hv, hplan, hoff, hcomp, hpm, hout⟩ := process_ok_elim hrun
  obtain ⟨hmv_mem, hmv_name⟩ := planOffset_moov hplan
  obtain ⟨pm', hmv_read⟩ := readAtoms_sound (s.length + 1) s 0 mv hmv_mem
  have hmv_wf := hwf mv hmv_mem
  have hhe : headerEndOf s mv = pm' := by simp [headerEndOf, hmv_read]
  have hpm'_le : pm' ≤ mv.position + mv.size := by rw [← hhe]; exact hmv_wf.2
  have hpm'_ge : mv.position + 8 ≤ pm' := by
    rcases (readAtomEx_elim hmv_read).2.2.2 with h | h <;> omega
  have hsz8 : 8 ≤ mv.size := by omega
  have hbuflen : (readUpTo s mv.position mv.size).length = mv.size := by
    rw [readUpTo_length]
    have := hmv_wf.1
    omega
  have hslice := readAtomEx_slice hmv_read hpm'_le
  simp only [patchMoov] at hpm
  rw [hslice] at hpm
  simp only at hpm
  obtain ⟨⟨mbuf', fin⟩, hpw, hfst⟩ := exceptMap_ok hpm
  simp only at hfst
  subst hfst
  obtain ⟨hmlen, hmtake, hmfin⟩ := patchWalk_frame _ _ _ _ _ _ _ hpw
  have hmbuf_len : mbuf'.length = mv.size := by rw [hmlen, hbuflen]
  have hmbuf_read : readAtomEx mbuf' 0 = some (⟨mv.name, 0, mv.size⟩, pm' - mv.position) :=
    readAtomEx_take_congr hslice hmtake (le_refl _)
  have hblockAtom : ∀ a ∈ getIndexAtoms s, ∃ pa,
      readAtomEx (readUpTo s a.position a.size) 0 = some (⟨a.name, 0, a.size⟩, pa) ∧
      (readUpTo s a.position a.size).length = a.size ∧ a.size ≠ 0 := by
    intro a ha
    obtain ⟨pa', hra⟩ := readAtoms_sound (s.length + 1) s 0 a ha
    have hb := hwf a ha
    have hhea : headerEndOf s a = pa' := by simp [headerEndOf, hra]
    have h1 : pa' ≤ a.position + a.size := by rw [← hhea]; exact hb.2
    have h2 : 8 ≤ a.size := by
      rcases (readAtomEx_elim hra).2.2.2 with h | h <;> omega
    refine ⟨pa' - a.position, readAtomEx_slice hra h1, ?_, by omega⟩
    rw [readUpTo_length]
    have := hb.1
    omega
  have hmdat : ∃ d ∈ getIndexAtoms s, d.name = MDAT := by
    unfold ensureValidIndex at hv
    split at hv
    · split at hv
      · rename_i h2
        simp only [List.any_eq_true, decide_eq_true_eq] at h2
        exact h2
      · cases hv
    · cases hv
  obtain ⟨d, hd_mem, hd_name⟩ := hmdat
  have hd_skip : decide (d.name ∉ skipTypes true) = true := by
    rw [hd_name]; decide
  set Lf : List (Atom × Bytes) :=
    ((getIndexAtoms s).filter (fun a => decide (a.name = FTYP))).map
      (fun a => (a, readUpTo s a.position a.size)) with hLf
  set Lr : List (Atom × Bytes) :=
    ((getIndexAtoms s).filter (fun a => decide (a.name ∉ skipTypes true))).map
      (fun a => (a, copyAtomBytes s a none)) with hLr
  set L : List (Atom × Bytes) :=
    Lf ++ ((if toEnd then [] else [(mv, mbuf')]) ++
      (Lr ++ (if toEnd then [(mv, mbuf')] else []))) with hL
  have hout' : out = (L.map Prod.snd).flatten := by
    rw [hout, hL, hLf, hLr]
    cases toEnd <;>
      simp [List.map_map, Function.comp_def, List.flatten_append]
  have hLfOK : ∀ p ∈ Lf, ∃ p', readAtomEx p.2 0 = some (⟨p.1.name, 0, p.1.size⟩, p') ∧
      p.2.length = p.1.size ∧ p.1.size ≠ 0 := by
    intro p hp
    rw [hLf] at hp
    obtain ⟨a, ha, rfl⟩ := List.mem_map.mp hp
    exact hblockAtom a (List.mem_filter.mp ha).1
  have hLrOK : ∀ p ∈ Lr, ∃ p', readAtomEx p.2 0 = some (⟨p.1.name, 0, p.1.size⟩, p') ∧
      p.2.length = p.1.size ∧ p.1.size ≠ 0 := by
    intro p hp
    rw [hLr] at hp
    obtain ⟨a, ha, rfl⟩ := List.mem_map.mp hp
    have := hblockAtom a (List.mem_filter.mp ha).1
    simpa [copyAtomBytes_eq, curLimitOf] using this
  have hmvOK : ∃ p', readAtomEx mbuf' 0 = some (⟨mv.name, 0, mv.size⟩, p') ∧
      mbuf'.length = mv.size ∧ mv.size ≠ 0 :=
    ⟨pm' - mv.position, hmbuf_read, hmbuf_len, by omega⟩
  have hLOK : ∀ p ∈ L, ∃ p', readAtomEx p.2 0 = some (⟨p.1.name, 0, p.1.size⟩, p') ∧
      p.2.length = p.1.size ∧ p.1.size ≠ 0 := by
    intro p hp
    rw [hL] at hp
    have hp' : p ∈ Lf ∨ p = (mv, mbuf') ∨ p ∈ Lr := by
      cases toEnd <;> simp at hp <;> tauto
    rcases hp' with hp' | rfl | hp'
    · exact hLfOK p hp'
    · exact hmvOK
    · exact hLrOK p hp'
  have hnzL : ∀ p ∈ L, p.2.length ≠ 0 := by
    intro p hp
    obtain ⟨p', _, hlen, hsz⟩ := hLOK p hp
    rw [hlen]
    exact hsz
  have hparse : getIndexAtoms out = reposition 0 L := by
    rw [hout']
    unfold getIndexAtoms
    have hfuel : L.length < ((L.map Prod.snd).flatten).length + 1 :=
      Nat.lt_succ_of_le (blocks_len_le L hnzL)
    have := parseConcat L [] (((L.map Prod.snd).flatten).length + 1) hLOK hfuel
    simpa using this
  have hmv_pair : (mv, mbuf') ∈ L := by
    rw [hL]
    cases toEnd <;> simp
  have hd_pair : (d, copyAtomBytes s d none) ∈ Lr := by
    rw [hLr]
    exact List.mem_map.mpr ⟨d, List.mem_filter.mpr ⟨hd_mem, hd_skip⟩, rfl⟩
  have hd_L : (d, copyAtomBytes s d none) ∈ L := by
    rw [hL]
    cases toEnd <;> simp [hd_pair]
  have hvalid_out : ensureValidIndex (getIndexAtoms out) = Except.ok () := by
    rw [hparse]
    obtain ⟨x, hx_mem, hx_name, -, -⟩ := reposition_mem_of L 0 (mv, mbuf') hmv_pair
    obtain ⟨y, hy_mem, hy_name, -, -⟩ :=
      reposition_mem_of L 0 (d, copyAtomBytes s d none) hd_L
    unfold ensureValidIndex
    rw [if_pos (List.any_eq_true.mpr ⟨x, hx_mem,
        decide_eq_true (by rw [hx_name]; exact hmv_name)⟩),
      if_pos (List.any_eq_true.mpr ⟨y, hy_mem,
        decide_eq_true (by rw [hy_name]; exact hd_name)⟩)]
  have hRfnames : ∀ x ∈ reposition 0 Lf, x.name = FTYP := by
    intro x hx
    obtain ⟨⟨p, hp, hn, -⟩, -⟩ := reposition_mem_elim Lf 0 x hx
    rw [hLf] at hp
    obtain ⟨a, ha, rfl⟩ := List.mem_map.mp hp
    rw [hn]
    exact of_decide_eq_true (List.mem_filter.mp ha).2
  have hLrnames : ∀ (base : Nat) (x : Atom), x ∈ reposition base Lr →
      x.name ≠ MOOV ∧ x.name ≠ FREE ∧ x.name ≠ ZERO4 := by
    intro base x hx
    obtain ⟨⟨p, hp, hn, -⟩, -⟩ := reposition_mem_elim Lr base x hx
    rw [hLr] at hp
    obtain ⟨a, ha, rfl⟩ := List.mem_map.mp hp
    have hnotin := of_decide_eq_true (List.mem_filter.mp ha).2
    have hzid := hz a (List.mem_filter.mp ha).1
    have hsk : skipTypes true = [FTYP, MOOV, FREE] := rfl
    rw [hsk] at hnotin
    simp only [List.mem_cons, List.not_mem_nil, or_false, not_or] at hnotin
    rw [hn]
    exact ⟨hnotin.2.1, hnotin.2.2, hzid⟩
  have hnzLr : ∀ p ∈ Lr, p.2.length ≠ 0 := by
    intro p hp
    obtain ⟨p', _, hlen, hsz⟩ := hLrOK p hp
    rw [hlen]
    exact hsz
  obtain ⟨xd, hxd_mem', hxd_name, hxd_size, hxd_base⟩ :=
    reposition_mem_of Lr ((Lf.map Prod.snd).flatten.length +
      (if toEnd then 0 else mv.size)) (d, copyAtomBytes s d none) hd_pair
  cases toEnd with
  | false =>
    have hshape : reposition 0 L =
        reposition 0 Lf ++ (⟨mv.name, (Lf.map Prod.snd).flatten.length, mv.size⟩ ::
          reposition ((Lf.map Prod.snd).flatten.length + mv.size) Lr) := by
      rw [hL]
      simp only [if_false, Bool.false_eq_true, List.append_nil]
      rw [reposition_append]
      simp only [Nat.zero_add, reposition, hmbuf_len]
      rfl
    have hplan_out : planOffset (getIndexAtoms out) false true =
        some (0, ⟨mv.name, (Lf.map Prod.snd).flatten.length, mv.size⟩) := by
      rw [hparse, hshape]
      apply planOffset_first
      · exact hmv_name
      · exact hRfnames
      · exact fun x hx => hLrnames _ x hx
      · refine ⟨xd, ?_, by rw [hxd_name]; exact hd_name⟩
        simpa using hxd_mem'
      · intro x hx
        obtain ⟨-, hb⟩ := reposition_mem_elim Lr _ x hx
        simp only
        omega
    exact process_zero_offset hvalid_out hplan_out
  | true =>
    have hshape : reposition 0 L =
        (reposition 0 Lf ++ reposition ((Lf.map Prod.snd).flatten.length) Lr) ++
          [⟨mv.name, (Lf.map Prod.snd).flatten.length +
            ((Lr.map Prod.snd).flatten).length, mv.size⟩] := by
      rw [hL]
      simp only [if_pos, List.nil_append]
      rw [reposition_append, reposition_append]
      simp only [Nat.zero_add, reposition, List.append_assoc]
    have hplan_out : planOffset (getIndexAtoms out) true true =
        some (0, ⟨mv.name, (Lf.map Prod.snd).flatten.length +
          ((Lr.map Prod.snd).flatten).length, mv.size⟩) := by
      rw [hparse, hshape]
      apply planOffset_last
      · exact hmv_name
      · exact hRfnames
      · exact fun x hx => hLrnames _ x hx
      · refine ⟨xd, ?_, by rw [hxd_name]; exact hd_name⟩
        simpa using hxd_mem'
      · intro x hx
        have := reposition_mem_upper Lr ((Lf.map Prod.snd).flatten.length) x hnzLr hx
        simp only
        omega
    exact process_zero_offset hvalid_out hplan_out

/-- A file with a 16-byte zero-named atom, then `moov`, then `mdat`. -/
def zeroNameFile : Bytes :=
  [0, 0, 0, 16] ++ ZERO4 ++ [0, 0, 0, 0, 0, 0, 0, 0] ++
    ([0, 0, 0, 8] ++ MOOV) ++ ([0, 0, 0, 8] ++ MDAT)

/-- The output `process` writes for `zeroNameFile`. -/
def zeroNameOut : Bytes :=
  ([0, 0, 0, 8] ++ MOOV) ++ ([0, 0, 0, 16] ++ ZERO4 ++ [0, 0, 0, 0, 0, 0, 0, 0]) ++
    ([0, 0, 0, 8] ++ MDAT)

/-- C9 counterexample: on a file with a nonzero-size zero-named atom,
`process` succeeds, and running `process` again on its own output (same
metadata-first layout, cleanup enabled) succeeds again — producing the very
same output instead of reporting the already-optimized condition: the
planner charges 8 bytes for the zero-named atom on every run, while the
writer copies it whole, so the delta never reaches zero. -/
theorem C9_zero_name_reprocessed :
    process zeroNameFile none false true = Except.ok zeroNameOut ∧
    process zeroNameOut none false true = Except.ok zeroNameOut := by
  exact ⟨by decide, by decide⟩

/-- A file with a 16-byte `free` atom, then `moov`, then `mdat`. -/
def freeMoovFile : Bytes :=
  [0, 0, 0, 16] ++ FREE ++ [0, 0, 0, 0, 0, 0, 0, 0] ++
    ([0, 0, 0, 8] ++ MOOV) ++ ([0, 0, 0, 8] ++ MDAT)

/-- C9 witness: processing `freeMoovFile` strips the free atom and writes
`moov ++ mdat`; re-processing that output reports the expected
already-set-up condition. -/
theorem C9_idempotence_witness :
    process (([0, 0, 0, 8] ++ MOOV) ++ ([0, 0, 0, 8] ++ MDAT)) none false true =
      Except.error (QtError.fastStartSetup setupMsg) :=
  C9_idempotence freeMoovFile false (([0, 0, 0, 8] ++ MOOV) ++ ([0, 0, 0, 8] ++ MDAT))
    (by decide) (by decide) (by decide)

end QtFastStart
